import Mathlib

/-!
Shallow embedding of the survey reconciliation and statistics engine of the
OrganisedSound repository (directory `Paper/Results_5`, with the near-identical
variant in `Paper/Results_2` and `analyse_tz5_os_study_v2.py`), together with
proofs about the embedded operations.

Conventions of the embedding:
* Python JSON-ish values are modelled by the inductive `PVal`
  (null / bool / number / string / list / dict); dicts are association lists.
* Python floats carried in analysis columns are modelled by `ℚ`; the extra
  float states are modelled where the source checks for them (`FloatVal`
  mirrors an `Optional[float]` argument that may be NaN).
* Parsed timestamps (`datetime` values) are modelled by `ℚ` with its linear
  order; only their order is ever used by the source.
* `str.strip`, `str.upper`, `str.split`, `str.startswith`, `str.endswith` are
  re-implemented over `List Char` (`pyStrip`, `pyUpper`, ...) so that all
  definitions evaluate inside the kernel.
* Python `float(s)` conversion of payload strings is modelled for plain
  decimal literals (optional sign, digits, optional fractional part); the
  exotic forms (exponents, `inf`, `nan`, underscores) do not occur in Likert
  payloads and are modelled as unparsable.
-/

/-- Python/JSON-style values as they appear in submission records. -/
inductive PVal where
  | pnull : PVal
  | pbool : Bool → PVal
  | pnum : ℚ → PVal
  | pstr : String → PVal
  | plist : List PVal → PVal
  | pdict : List (String × PVal) → PVal

/-- Python truthiness of a `PVal` (`bool(v)`): None, False, 0, empty string,
empty list and empty dict are falsy. -/
def pyTruthy : PVal → Bool
  | .pnull => false
  | .pbool b => b
  | .pnum q => q ≠ 0
  | .pstr s => s ≠ ""
  | .plist l => ! l.isEmpty
  | .pdict l => ! l.isEmpty

/-- Truthiness of the result of a dict lookup: a missing key behaves like
Python `None`. -/
def pyTruthyOpt : Option PVal → Bool
  | none => false
  | some v => pyTruthy v

/-- Python `or` on lookup results: the left value if truthy, else the right. -/
def pyOr (a b : Option PVal) : Option PVal :=
  if pyTruthyOpt a then a else b

/-- Whitespace stripping, modelling Python `str.strip()`. -/
def pyStrip (s : String) : String :=
  String.mk (((s.data.dropWhile Char.isWhitespace).reverse.dropWhile
    Char.isWhitespace).reverse)

/-- ASCII upper-casing of one character, modelling `str.upper` on the
alphabets used by the scripts. -/
def pyCharUpper (c : Char) : Char :=
  if 'a' ≤ c ∧ c ≤ 'z' then Char.ofNat (c.toNat - 32) else c

/-- Upper-casing of a string, modelling Python `str.upper()`. -/
def pyUpper (s : String) : String := String.mk (s.data.map pyCharUpper)

/-- Split a character list at a separator character. -/
def splitChars (sep : Char) : List Char → List (List Char)
  | [] => [[]]
  | c :: cs =>
    let rest := splitChars sep cs
    if c = sep then [] :: rest
    else match rest with
      | [] => [[c]]
      | g :: gs => (c :: g) :: gs

/-- Split a string on a one-character separator, modelling `str.split(sep)`
for the underscore separator used on section keys. -/
def pySplit (s : String) (sep : Char) : List String :=
  (splitChars sep s.data).map String.mk

/-- Model of `str.startswith`. -/
def pyStartsWith (s p : String) : Bool := s.data.take p.data.length = p.data

/-- Model of `str.endswith`. -/
def pyEndsWith (s p : String) : Bool := s.data.reverse.take p.data.length = p.data.reverse

/-- Value of a decimal digit character. -/
def digitVal (c : Char) : ℕ := c.toNat - 48

/-- Natural number denoted by a digit run. -/
def digitsToNat (ds : List Char) : ℕ := ds.foldl (fun a c => a * 10 + digitVal c) 0

/-- Parse an unsigned decimal literal (`"12"`, `"12.5"`, `"12."`, `".5"`). -/
def parseUnsignedDec (cs : List Char) : Option ℚ :=
  let ds := cs.takeWhile Char.isDigit
  let rest := cs.dropWhile Char.isDigit
  match rest with
  | [] => if ds.isEmpty then none else some (digitsToNat ds)
  | '.' :: rest2 =>
    let fs := rest2.takeWhile Char.isDigit
    let rest3 := rest2.dropWhile Char.isDigit
    if ¬ rest3.isEmpty then none
    else if ds.isEmpty ∧ fs.isEmpty then none
    else some ((digitsToNat ds : ℚ) + (digitsToNat fs : ℚ) / ((10 : ℚ) ^ fs.length))
  | _ => none

/-- Model of Python `float(s)` on plain decimal literals: surrounding
whitespace, an optional sign, digits with an optional fractional part.
Anything else yields `none` (the source wraps `float` in `try/except`). -/
def parseDecimal (s : String) : Option ℚ :=
  match (pyStrip s).data with
  | '-' :: rest => (parseUnsignedDec rest).map (fun q => -q)
  | '+' :: rest => parseUnsignedDec rest
  | cs => parseUnsignedDec cs

/-- Embedding of `transform.to_numeric`: `None` for null, numbers pass
through (`float(value)`), booleans are Python ints, strings are stripped and
parsed as floats, anything else is `None`. -/
def to_numeric : PVal → Option ℚ
  | .pnull => none
  | .pbool b => some (if b then 1 else 0)
  | .pnum q => some q
  | .pstr s => if pyStrip s = "" then none else parseDecimal s
  | .plist _ => none
  | .pdict _ => none

/-- Result of a dict `.get` fed to `to_numeric`: a missing key is `None`. -/
def to_numericOpt (v : Option PVal) : Option ℚ :=
  match v with
  | none => none
  | some v => to_numeric v

/-- An `Optional[float]` argument as received by `reverse_code`: it can be
`None`, NaN, or an actual numeric value. -/
inductive FloatVal where
  | fnone : FloatVal
  | fnan : FloatVal
  | fnum : ℚ → FloatVal
deriving DecidableEq

/-- Wrap the `Optional[float]` returned by `reverse_code` back into a
`FloatVal` (the returned float is never NaN). -/
def FloatVal.ofOpt : Option ℚ → FloatVal
  | none => .fnone
  | some q => .fnum q

/-- Embedding of `transform.reverse_code`: `None` when the input is `None` or
NaN, otherwise `scale_max + scale_min - value`.  The source defaults the
scales to 1 and 7. -/
def reverse_code (v : FloatVal) (scale_min scale_max : ℚ) : Option ℚ :=
  match v with
  | .fnone => none
  | .fnan => none
  | .fnum q => some (scale_max + scale_min - q)

/-- Column-level application of `reverse_code` with the default 1..7 scale
(`tmp[item].apply(reverse_code)` maps NaN cells to NaN). -/
def colReverse (o : Option ℚ) : Option ℚ :=
  o.bind (fun v => reverse_code (.fnum v) 1 7)

/-- Condition labels from `config.CONDITION_LABELS`. -/
def CONDITION_LABELS : List (String × String) :=
  [("A", "Visual Only"), ("B", "Audio Only"), ("C", "Audiovisual")]

/-- Condition alphabet from `config.CONDITION_ORDER`. -/
def CONDITION_ORDER : List String := ["A", "B", "C"]

/-- Static metadata of one Likert item (`config.ITEMS` values). -/
structure ItemMeta where
  label : String
  direction : ℤ
  phase : String
deriving DecidableEq

/-- Item vocabulary from `config.ITEMS` (insertion order preserved). -/
def ITEMS : List (String × ItemMeta) :=
  [ ("A_1", ⟨"A1 satisfaction", 1, "pre"⟩),
    ("A_2", ⟨"A2 intention clarity", 1, "pre"⟩),
    ("A_3", ⟨"A3 steerability", 1, "pre"⟩),
    ("A_4", ⟨"A4 interface workable", 1, "pre"⟩),
    ("A_5", ⟨"A5 useful surprise", 1, "pre"⟩),
    ("A_6", ⟨"A6 frustrating unpredictability", -1, "pre"⟩),
    ("A_7", ⟨"A7 others would find interesting", 1, "pre"⟩),
    ("B_1", ⟨"B1 same-process", 1, "post"⟩),
    ("B_2", ⟨"B2 balanced modalities", 1, "post"⟩),
    ("B_3", ⟨"B3 coherent/legible relationship", 1, "post"⟩),
    ("B_4", ⟨"B4 constructive interference", 1, "post"⟩),
    ("B_5", ⟨"B5 destructive interference", -1, "post"⟩),
    ("B_6", ⟨"B6 overload", -1, "post"⟩),
    ("B_7", ⟨"B7 expectation match", 1, "post"⟩),
    ("B_8", ⟨"B8 interpretation change", 1, "post"⟩),
    ("B_9", ⟨"B9 plausible causal story", 1, "post"⟩),
    ("B_10", ⟨"B10 system autonomy", 1, "post"⟩),
    ("B_11", ⟨"B11 relied on visual cues", 1, "post"⟩),
    ("B_12", ⟨"B12 relied on theory cues", 1, "post"⟩) ]

/-- Static metadata of one composite construct (`config.CONSTRUCTS` values). -/
structure ConstructMeta where
  items : List String
  reverse : List String
  formula : String
  interpretation : String
deriving DecidableEq

/-- Construct vocabulary from `config.CONSTRUCTS`. -/
def CONSTRUCTS : List (String × ConstructMeta) :=
  [ ("Intermediality Index",
      ⟨["B_1", "B_2", "B_3", "B_4", "B_5", "B_6"], ["B_5", "B_6"],
       "mean(reverse-coded B1-B6)",
       "Higher values indicate stronger intermedial coherence"⟩),
    ("Agency Index",
      ⟨["A_2", "A_3", "A_4", "A_6"], ["A_6"],
       "mean(reverse-coded A2-A4 minus A6)",
       "Higher values indicate stronger perceived agency"⟩),
    ("Mismatch Index",
      ⟨["B_7", "B_8"], [],
       "mean(B7, B8)",
       "Higher values indicate stronger expectation shifts"⟩) ]

/-- Item-to-construct table (`transform.ITEM_TO_CONSTRUCT`); the construct
item sets are pairwise disjoint, so first-match lookup agrees with the
dict built by the source's iteration. -/
def ITEM_TO_CONSTRUCT : List (String × String) :=
  CONSTRUCTS.flatMap (fun cm => cm.2.items.map (fun i => (i, cm.1)))

/-- End-of-session item labels from `config.END_ITEM_LABELS`. -/
def END_ITEM_LABELS : List (String × String) :=
  [ ("rank", "Preference rank (1=best)"),
    ("most_intermedial", "Most intermedial"),
    ("biggest_mismatch", "Biggest mismatch") ]

/-- Participant-id alias keys (`PID_KEYS`, identical in both scripts). -/
def PID_KEYS : List String :=
  ["participant_id", "participantId", "participant_code", "participantCode", "pid", "code"]

/-- Section alias keys (`SECTION_KEYS`). -/
def SECTION_KEYS : List String :=
  ["section_key", "sectionKey", "section", "section_id", "sectionId", "page", "step", "form"]

/-- Timestamp alias keys (`TS_KEYS`). -/
def TS_KEYS : List String :=
  ["updated_at", "updatedAt", "created_at", "createdAt", "timestamp", "saved_at", "savedAt", "time"]

/-- Extra non-Likert payload keys recognised by the analyse script
(`EXTRA_KEYS`). -/
def EXTRA_KEYS : List String :=
  [ "aim", "strategy", "expectation_vs_outcome", "interference_notes",
    "param_influence", "param_other", "preset_id",
    "rank_A", "rank_B", "rank_C", "most_intermedial", "biggest_mismatch",
    "one_change", "reflection", "session_notes_transcription",
    "session_type", "order", "age_range", "musical_experience",
    "theory_familiarity", "tonnetz_familiarity", "generative_experience",
    "color_deficiency", "light_sensitivity", "perceptual_comments", "dyad_done" ]

/-- Python `dict.get(k)`: the stored value, with a stored `None` and a missing
key both observed as `None` by the caller. -/
def dGet (d : List (String × PVal)) (k : String) : Option PVal :=
  match d.lookup k with
  | none => none
  | some .pnull => none
  | some v => some v

/-- Embedding of `find_first` (identical in `io_ingest.py` and the analyse
script): the value of the first alias key present in the record.  When the
first present key holds `None`, Python returns that `None` without trying
later aliases. -/
def find_first (rec : List (String × PVal)) : List String → Option PVal
  | [] => none
  | k :: ks =>
    match rec.lookup k with
    | none => find_first rec ks
    | some .pnull => none
    | some v => some v

/-- Python `or` between two already-fetched values. -/
def pyOrV (a b : Option PVal) : Option PVal :=
  if pyTruthyOpt a then a else b

/-- Timestamp value parsing used by `parse_timestamp`: numeric values become
points of the (rational) timeline via `datetime.fromtimestamp`; booleans are
Python ints.  ISO string parsing is outside the decimal fragment modelled
here and is treated as unparsable, which no claim exercises. -/
def parseTsVal : PVal → Option ℚ
  | .pnum q => some q
  | .pbool b => some (if b then 1 else 0)
  | _ => none

/-- Embedding of `parse_timestamp` (identical in both scripts): scan the
alias keys in order; a present numeric value is parsed immediately; a present
value of any other shape that does not parse lets the loop continue with the
next alias key. -/
def parse_timestamp (rec : List (String × PVal)) : Option ℚ :=
  go TS_KEYS
where
  go : List String → Option ℚ
    | [] => none
    | k :: ks =>
      match rec.lookup k with
      | some v =>
        match parseTsVal v with
        | some t => some t
        | none => go ks
      | none => go ks

/-- Raw value stored by the analyse loader under `updated_at`: the value of
the first timestamp alias key present, even when that value is unparsable
(the loop `for k in TS_KEYS: ... break` stops at the first present key). -/
def storedTsVal (rec : List (String × PVal)) : Option PVal :=
  go TS_KEYS
where
  go : List String → Option PVal
    | [] => none
    | k :: ks =>
      match rec.lookup k with
      | some v => some v
      | none => go ks

/-- String rendering of a Python value (`str(v)`), used on participant ids and
section keys.  Claims only depend on its restriction to strings; the numeric
rendering differs from CPython float formatting in irrelevant corners. -/
def pyStr : PVal → String
  | .pstr s => s
  | .pnull => "None"
  | .pbool b => if b then "True" else "False"
  | .pnum q => toString q
  | .plist _ => "[list]"
  | .pdict _ => "[dict]"

/-- Normalized submission as built by the loaders: the spec's RawSubmission.
`updated_at` holds the parsed timestamp (`none` when absent or unparsable);
the ingestion index (`sequence_index`) is the position in the record list. -/
structure RawSub where
  participant_id : Option String
  section_key : Option String
  payload : List (String × PVal)
  updated_at : Option ℚ

/-- Truthiness of an optional participant-id/section string (`if not pid`). -/
def ioTruthy : Option String → Bool
  | none => false
  | some s => s ≠ ""

/-- Grouping key used by `select_latest`: defined only when both the
participant id and the section key are truthy. -/
def ioKey (r : RawSub) : Option (String × String) :=
  if ioTruthy r.participant_id ∧ ioTruthy r.section_key then
    some (r.participant_id.getD "", r.section_key.getD "")
  else none

/-- Replace the value stored under a key of an association list, keeping the
entry position (Python dict assignment on an existing key). -/
def assocSet {β : Type} (d : List ((String × String) × β)) (key : String × String)
    (v : β) : List ((String × String) × β) :=
  d.map (fun kv => if kv.1 = key then (key, v) else kv)

namespace IoIngest

/-- One step of `io_ingest.select_latest`: the branch structure of the
source.  When both candidates carry timestamps the new record wins on
`t_new >= t_old`; in every remaining case (including a timestamped existing
record versus a timestampless new one) the source's `else` keeps the later
record. -/
def select_latest_step (latest : List ((String × String) × RawSub)) (rec : RawSub) :
    List ((String × String) × RawSub) :=
  match ioKey rec with
  | none => latest
  | some key =>
    match latest.lookup key with
    | none => latest ++ [(key, rec)]
    | some existing =>
      match rec.updated_at, existing.updated_at with
      | some tn, some told => if told ≤ tn then assocSet latest key rec else latest
      | some _, none => assocSet latest key rec
      | none, _ => assocSet latest key rec

/-- Embedding of `io_ingest.select_latest`: fold the records into a dict
keyed by `(participant_id, section_key)` and return its values in key
insertion order. -/
def select_latest (records : List RawSub) : List RawSub :=
  (records.foldl select_latest_step []).map (fun kv => kv.2)

/-- Keyed view of the resolver output. -/
def resolvedMap (records : List RawSub) (key : String × String) : Option RawSub :=
  (records.foldl select_latest_step []).lookup key

/-- Pairwise choice implemented by `select_latest` for two same-key records,
`old` ingested before `new`. -/
def ioLatestPick (old new : RawSub) : RawSub :=
  match new.updated_at, old.updated_at with
  | some tn, some told => if told ≤ tn then new else old
  | some _, none => new
  | none, _ => new

/-- Record filter of `io_ingest.load_records`: a candidate dict is kept only
when both a truthy participant id and a truthy section key are found among
the alias keys. -/
def keepsRecord (d : List (String × PVal)) : Bool :=
  pyTruthyOpt (find_first d PID_KEYS) && pyTruthyOpt (find_first d SECTION_KEYS)

/-- Payload choice of `io_ingest.load_records`:
`rec.get("payload") if "payload" in rec else rec.get("data") if "data" in rec
else rec.get("answers")`, then replaced by an empty dict unless it is a
dict. -/
def payloadOf (d : List (String × PVal)) : List (String × PVal) :=
  let chosen : Option PVal :=
    match d.lookup "payload" with
    | some v => some v
    | none =>
      match d.lookup "data" with
      | some v => some v
      | none => dGet d "answers"
  match chosen with
  | some (.pdict kvs) => kvs
  | _ => []

/-- Normalization of one kept record by `io_ingest.load_records`. -/
def normalize (d : List (String × PVal)) : RawSub :=
  { participant_id := (find_first d PID_KEYS).map pyStr
    section_key := (find_first d SECTION_KEYS).map pyStr
    payload := payloadOf d
    updated_at := parse_timestamp d }

/-- Embedding of `io_ingest.load_records` after JSON parsing: unwrap a
top-level dict through the first of `data`/`records`/`rows` holding a list,
fail (`ValueError`) unless a list results, keep the dict elements that pass
`keepsRecord`, and resolve duplicates with `select_latest`. -/
def load_records (data : PVal) : Except String (List RawSub) :=
  let unwrapped : PVal :=
    match data with
    | .pdict kvs =>
      match kvs.lookup "data" with
      | some (.plist l) => .plist l
      | _ =>
        match kvs.lookup "records" with
        | some (.plist l) => .plist l
        | _ =>
          match kvs.lookup "rows" with
          | some (.plist l) => .plist l
          | _ => .pdict kvs
    | v => v
  match unwrapped with
  | .plist l =>
    .ok (select_latest ((l.filterMap (fun v =>
      match v with
      | .pdict kvs => if keepsRecord kvs then some (normalize kvs) else none
      | _ => none))))
  | _ => .error "Input JSON must be a list of records."

end IoIngest

/-- Python dict assignment `d[k] = v`: overwrite in place, or append. -/
def pyDictSet (d : List (String × PVal)) (k : String) (v : PVal) :
    List (String × PVal) :=
  if (d.lookup k).isSome then d.map (fun kv => if kv.1 = k then (k, v) else kv)
  else d ++ [(k, v)]

/-- Python `d.setdefault(k, v)` restricted to its effect on the dict. -/
def pyDictSetdefault (d : List (String × PVal)) (k : String) (v : PVal) :
    List (String × PVal) :=
  if (d.lookup k).isSome then d else d ++ [(k, v)]

/-- Key filter of `extract_answers_block`: item-code-shaped keys (`A_`/`B_`
prefixes) and the known extra keys. -/
def qualifiesKey (k : String) : Bool :=
  pyStartsWith k "A_" || pyStartsWith k "B_" || EXTRA_KEYS.contains k

mutual

/-- Embedding of `iter_dicts` from the analyse script: yield every
mapping-shaped node of a nested structure, parents before children. -/
def iter_dicts : PVal → List (List (String × PVal))
  | .pdict kvs => kvs :: iterDictVals kvs
  | .plist l => iterDictList l
  | _ => []

/-- Traversal of the values of a mapping node. -/
def iterDictVals : List (String × PVal) → List (List (String × PVal))
  | [] => []
  | (_, v) :: rest => iter_dicts v ++ iterDictVals rest

/-- Traversal of the elements of a sequence node. -/
def iterDictList : List PVal → List (List (String × PVal))
  | [] => []
  | v :: rest => iter_dicts v ++ iterDictList rest

end

mutual

/-- Embedding of the `ingest` closure of `extract_answers_block`: a dict of
question/answer shape stores one pair; any other dict keeps its qualifying
keys; lists are ingested elementwise; scalars are ignored. -/
def ingest (out : List (String × PVal)) : PVal → List (String × PVal)
  | .pdict kvs =>
    if ((kvs.lookup "id").isSome || (kvs.lookup "qid").isSome
          || (kvs.lookup "name").isSome)
        && ((kvs.lookup "value").isSome || (kvs.lookup "answer").isSome
          || (kvs.lookup "response").isSome) then
      let qid := pyOrV (pyOrV (dGet kvs "id") (dGet kvs "qid")) (dGet kvs "name")
      let val : PVal :=
        match kvs.lookup "value" with
        | some v => v
        | none =>
          match kvs.lookup "answer" with
          | some v => v
          | none => (dGet kvs "response").getD .pnull
      match qid with
      | some (.pstr s) => pyDictSet out (pyStrip s) val
      | _ => out
    else ingestKVs out kvs
  | .plist l => ingestList out l
  | _ => out

/-- Qualifying-key pass over a non-question-shaped dict. -/
def ingestKVs (out : List (String × PVal)) : List (String × PVal) →
    List (String × PVal)
  | [] => out
  | (k, v) :: rest =>
    ingestKVs (if qualifiesKey k then pyDictSet out (pyStrip k) v else out) rest

/-- Elementwise ingestion of a list node. -/
def ingestList (out : List (String × PVal)) : List PVal → List (String × PVal)
  | [] => out
  | v :: rest => ingestList (ingest out v) rest

end

/-- Embedding of `extract_answers_block`: ingest the candidate containers in
source order, then adopt qualifying top-level keys via `setdefault`. -/
def extract_answers_block (rec : List (String × PVal)) : List (String × PVal) :=
  let candidates := (["answers", "responses", "response", "data", "fields",
    "values", "payload"]).filterMap (fun k => rec.lookup k)
  let out := candidates.foldl ingest []
  rec.foldl
    (fun o kv =>
      if qualifiesKey kv.1 then pyDictSetdefault o (pyStrip kv.1) kv.2 else o)
    out

/-- Embedding of `extract_payload`: start from a dict-shaped `payload` field,
then overlay the extracted answers block. -/
def extract_payload (rec : List (String × PVal)) : List (String × PVal) :=
  let base : List (String × PVal) :=
    match rec.lookup "payload" with
    | some (.pdict kvs) => kvs.foldl (fun d kv => pyDictSet d kv.1 kv.2) []
    | _ => []
  (extract_answers_block rec).foldl (fun d kv => pyDictSet d kv.1 kv.2) base

namespace AnalyseV2

/-- Candidate mapping nodes inspected by the analyse script's
`load_records`: the dict elements of a top-level list, or every nested
mapping node otherwise. -/
def candidatesOf (data : PVal) : List (List (String × PVal)) :=
  match data with
  | .plist l =>
    l.filterMap (fun v =>
      match v with
      | .pdict kvs => some kvs
      | _ => none)
  | v => iter_dicts v

/-- Participant id of a candidate record before stringification
(`find_first(d, PID_KEYS) or d.get("participant_id")`). -/
def pidVal (d : List (String × PVal)) : Option PVal :=
  pyOrV (find_first d PID_KEYS) (dGet d "participant_id")

/-- Section key of a candidate record before stringification. -/
def skVal (d : List (String × PVal)) : Option PVal :=
  pyOrV (find_first d SECTION_KEYS) (dGet d "section_key")

/-- Record filter of the analyse script's `load_records`: a candidate is
dropped only when the participant id and section key are both `None` and the
extracted payload is empty. -/
def keepsRecord (d : List (String × PVal)) : Bool :=
  ! ((pidVal d).isNone && (skVal d).isNone && (extract_payload d).isEmpty)

/-- Normalization of one kept record by the analyse script's `load_records`.
The source stores the first present timestamp alias's raw value and parses it
later through `parse_timestamp`; the composition is modelled here. -/
def normalize (d : List (String × PVal)) : RawSub :=
  { participant_id := (pidVal d).map (fun v => pyStrip (pyStr v))
    section_key := (skVal d).map (fun v => pyStrip (pyStr v))
    payload := extract_payload d
    updated_at := (storedTsVal d).bind parseTsVal }

/-- Embedding of the analyse script's `load_records` after JSON parsing. -/
def load_records (data : PVal) : List RawSub :=
  (candidatesOf data).filterMap
    (fun d => if keepsRecord d then some (normalize d) else none)

/-- One step of `latest_per_participant_section`, on an (index, record)
pair.  A record replaces the stored one when it has a parsed timestamp at
least as late as the stored timestamp (or the stored record has none), or
when neither has a timestamp and the new ingestion index is at least the
stored one. -/
def lps_step
    (latest : List ((String × String) × (Option ℚ × ℕ × RawSub)))
    (ir : ℕ × RawSub) :
    List ((String × String) × (Option ℚ × ℕ × RawSub)) :=
  let idx := ir.1
  let r := ir.2
  let pid := pyStrip (r.participant_id.getD "")
  let sk := pyStrip (r.section_key.getD "")
  if pid = "" ∨ sk = "" then latest
  else
    let key := (pid, sk)
    match latest.lookup key with
    | none => latest ++ [(key, (r.updated_at, idx, r))]
    | some prev =>
      match r.updated_at, prev.1 with
      | some tc, some tp =>
        if tp ≤ tc then assocSet latest key (some tc, idx, r) else latest
      | some tc, none => assocSet latest key (some tc, idx, r)
      | none, none =>
        if prev.2.1 ≤ idx then assocSet latest key (none, idx, r) else latest
      | none, some _ => latest

/-- Embedding of `latest_per_participant_section`: fold the enumerated
records into a dict keyed by the stripped `(participant_id, section_key)`. -/
def latest_per_participant_section (records : List RawSub) :
    List ((String × String) × (Option ℚ × ℕ × RawSub)) :=
  records.enum.foldl lps_step []

/-- Resolved record for one key. -/
def resolvedMap (records : List RawSub) (key : String × String) :
    Option RawSub :=
  ((latest_per_participant_section records).lookup key).map (fun e => e.2.2)

end AnalyseV2

/-- Specification-side pairwise latest-wins order (spec section 4.2), stated
for two same-key submissions with `r1` ingested before `r2`: a lone parsed
timestamp wins; with two timestamps the later one wins; with tied or absent
timestamps the later-ingested record wins. -/
def specLatestWins (r1 r2 : RawSub) : RawSub :=
  match r1.updated_at, r2.updated_at with
  | some t1, some t2 => if t2 < t1 then r1 else r2
  | some _, none => r1
  | none, some _ => r2
  | none, none => r2

/-- Embedding of the anchored regex `block_([ABC])_(pre|post)$` used by
`transform.build_blocks_long` / `build_blocks_wide`: it accepts exactly six
section keys (the trailing-newline corner of `$` is not modelled). -/
def parseBlockSection (s : String) : Option (String × String) :=
  if s = "block_A_pre" then some ("A", "pre")
  else if s = "block_B_pre" then some ("B", "pre")
  else if s = "block_C_pre" then some ("C", "pre")
  else if s = "block_A_post" then some ("A", "post")
  else if s = "block_B_post" then some ("B", "post")
  else if s = "block_C_post" then some ("C", "post")
  else none

/-- Lookup in a per-participant order map
(`order_map.get(pid, {}).get(condition)`). -/
def omGet (om : List (String × List (String × ℕ))) (pid : Option String)
    (cond : String) : Option ℕ :=
  match pid with
  | none => none
  | some p =>
    match om.lookup p with
    | none => none
    | some m => m.lookup cond

/-- One row of the long table built by `transform.build_blocks_long`. -/
structure LongRow where
  participant_id : Option String
  condition : String
  phase : String
  item : String
  value : Option ℚ
  item_label : Option String
  is_reverse : Bool
  construct : Option String
  block_position : Option ℕ
  timestamps : Option ℚ

/-- Long rows contributed by one canonical record: declared items of the
record's phase for a block section, rank and single-choice rows for the
`end` section, nothing otherwise. -/
def longRowsOf (om : List (String × List (String × ℕ))) (rec : RawSub) :
    List LongRow :=
  let sec := rec.section_key.getD ""
  match parseBlockSection sec with
  | some cp =>
    ITEMS.filterMap (fun im =>
      if im.2.phase = cp.2 then
        some { participant_id := rec.participant_id
               condition := cp.1
               phase := cp.2
               item := im.1
               value := to_numericOpt (rec.payload.lookup im.1)
               item_label := some im.2.label
               is_reverse := decide (im.2.direction = -1)
               construct := ITEM_TO_CONSTRUCT.lookup im.1
               block_position := omGet om rec.participant_id cp.1
               timestamps := rec.updated_at }
      else none)
  | none =>
    if sec = "end" then
      (CONDITION_ORDER.filterMap (fun cond =>
        match rec.payload.lookup ("rank_" ++ cond) with
        | some rv =>
          some { participant_id := rec.participant_id
                 condition := cond
                 phase := "end"
                 item := "rank"
                 value := to_numeric rv
                 item_label := END_ITEM_LABELS.lookup "rank"
                 is_reverse := false
                 construct := none
                 block_position := omGet om rec.participant_id cond
                 timestamps := rec.updated_at }
        | none => none))
      ++ ((["most_intermedial", "biggest_mismatch"]).filterMap (fun key =>
        match rec.payload.lookup key with
        | some (.pstr v) =>
          if CONDITION_ORDER.contains v then
            some { participant_id := rec.participant_id
                   condition := v
                   phase := "end"
                   item := key
                   value := some 1
                   item_label := END_ITEM_LABELS.lookup key
                   is_reverse := false
                   construct := none
                   block_position := omGet om rec.participant_id v
                   timestamps := rec.updated_at }
          else none
        | _ => none))
    else []

/-- Embedding of `transform.build_blocks_long`. -/
def build_blocks_long (records : List RawSub)
    (om : List (String × List (String × ℕ))) : List LongRow :=
  records.flatMap (longRowsOf om)

/-- Phase half of a wide row: the item columns written for one block record,
its extra qualitative columns, and its timestamp column. -/
structure Half where
  items : List (String × Option ℚ)
  extras : List (String × Option PVal)
  tstamp : Option ℚ

/-- Pre-phase half written by `build_blocks_wide` for one record. -/
def preHalfOf (rec : RawSub) : Half :=
  { items := ITEMS.filterMap (fun im =>
      if im.2.phase = "pre" then
        some (im.1, to_numericOpt (rec.payload.lookup im.1))
      else none)
    extras := [("aim", dGet rec.payload "aim"),
               ("strategy", dGet rec.payload "strategy"),
               ("preset_id", dGet rec.payload "preset_id")]
    tstamp := rec.updated_at }

/-- Post-phase half written by `build_blocks_wide` for one record. -/
def postHalfOf (rec : RawSub) : Half :=
  { items := ITEMS.filterMap (fun im =>
      if im.2.phase = "post" then
        some (im.1, to_numericOpt (rec.payload.lookup im.1))
      else none)
    extras := [("param_influence", dGet rec.payload "param_influence"),
               ("param_other", dGet rec.payload "param_other"),
               ("expectation_vs_outcome", dGet rec.payload "expectation_vs_outcome"),
               ("interference_notes", dGet rec.payload "interference_notes"),
               ("preset_id", dGet rec.payload "preset_id")]
    tstamp := rec.updated_at }

/-- Insert or fully refresh the half stored for a key.  The source's
`setdefault` keeps the first row object and then overwrites every non-base
column with the current record's values; the base columns are functions of
the key and order map alone, so only the refreshed columns live in `Half`. -/
def upsertHalf (d : List ((Option String × String) × Half))
    (key : Option String × String) (h : Half) :
    List ((Option String × String) × Half) :=
  if (d.lookup key).isSome then
    d.map (fun kv => if kv.1 = key then (key, h) else kv)
  else d ++ [(key, h)]

/-- One step of the record loop of `transform.build_blocks_wide`. -/
def wideStep
    (acc : List ((Option String × String) × Half) ×
      List ((Option String × String) × Half)) (rec : RawSub) :
    List ((Option String × String) × Half) ×
      List ((Option String × String) × Half) :=
  let sec := rec.section_key.getD ""
  match parseBlockSection sec with
  | none => acc
  | some cp =>
    let key := (rec.participant_id, cp.1)
    if cp.2 = "pre" then (upsertHalf acc.1 key (preHalfOf rec), acc.2)
    else (acc.1, upsertHalf acc.2 key (postHalfOf rec))

/-- First-occurrence deduplication (Python `set` membership accumulation). -/
def dedupFirst {α : Type} [DecidableEq α] (l : List α) : List α :=
  l.foldl (fun acc x => if acc.contains x then acc else acc ++ [x]) []

/-- Lexicographic comparison of character lists: the order Python uses on
strings (by code point). -/
def strLtB : List Char → List Char → Bool
  | [], [] => false
  | [], _ :: _ => true
  | _ :: _, [] => false
  | a :: as, b :: bs => if a < b then true else if b < a then false else strLtB as bs

/-- Python string `<`. -/
def pyStrLt (s t : String) : Bool := strLtB s.data t.data

/-- Sort order on wide keys, modelling `sorted` on Python string tuples (a
`None` participant id is ordered as the empty string). -/
def keyLe (a b : Option String × String) : Prop :=
  pyStrLt (a.1.getD "") (b.1.getD "") = true ∨
    (a.1.getD "" = b.1.getD "" ∧ (pyStrLt a.2 b.2 = true ∨ a.2 = b.2))

instance : DecidableRel keyLe := fun a b => by
  unfold keyLe
  infer_instance

/-- One merged row of the wide table (`row.update(pre); row.update(post)`),
before composite columns are attached. -/
structure WideRow where
  participant_id : Option String
  condition : String
  condition_label : String
  block_position : Option ℕ
  pre : Option Half
  post : Option Half

/-- Item-column value of a wide row: the post half's column wins a (never
occurring) overlap, mirroring dict-update order; a column written by neither
half is NaN. -/
def wideItemVal (row : WideRow) (i : String) : Option ℚ :=
  match row.post.bind (fun h => h.items.lookup i) with
  | some v => v
  | none =>
    match row.pre.bind (fun h => h.items.lookup i) with
    | some v => v
    | none => none

/-- Embedding of the row-assembly part of `transform.build_blocks_wide`:
keys of either half, sorted, merged into one row per key. -/
def build_blocks_wide_rows (records : List RawSub)
    (om : List (String × List (String × ℕ))) : List WideRow :=
  let pp := records.foldl wideStep ([], [])
  let keys := (dedupFirst ((pp.1.map (fun kv => kv.1)) ++
    (pp.2.map (fun kv => kv.1)))).insertionSort keyLe
  keys.map (fun k =>
    { participant_id := k.1
      condition := k.2
      condition_label := (CONDITION_LABELS.lookup k.2).getD k.2
      block_position := omGet om k.1 k.2
      pre := pp.1.lookup k
      post := pp.2.lookup k })

/-- Columns of the wide item block (`wide_df.columns` restricted to item
columns): every item column written by some row. -/
def wideCols (rows : List WideRow) : List String :=
  rows.flatMap (fun r =>
    (r.pre.elim [] (fun h => h.items.map (fun kv => kv.1))) ++
    (r.post.elim [] (fun h => h.items.map (fun kv => kv.1))))

/-- Composite value of one construct on one wide row, as computed by
`transform.compute_composites`: restrict the construct's items to the
available columns, reverse-code the declared subset via `reverse_code`, and
take the row mean with `skipna=True`. -/
def compositeValCols (lookup : String → Option ℚ) (cm : ConstructMeta)
    (cols : List String) : Option ℚ :=
  let use := cm.items.filter (fun i => cols.contains i)
  let vals := use.filterMap (fun i =>
    if cm.reverse.contains i then colReverse (lookup i) else lookup i)
  if vals.isEmpty then none else some (vals.sum / (vals.length : ℚ))

/-- Embedding of `transform.compute_composites`: attach one composite column
per construct with at least one available constituent column. -/
def compute_composites (rows : List WideRow) :
    List (WideRow × List (String × Option ℚ)) :=
  let cols := wideCols rows
  rows.map (fun row =>
    (row, CONSTRUCTS.filterMap (fun cm =>
      if (cm.2.items.filter (fun i => cols.contains i)).isEmpty then none
      else some (cm.1, compositeValCols (wideItemVal row) cm.2 cols))))

/-- Embedding of `transform.build_blocks_wide` (rows plus composites). -/
def build_blocks_wide (records : List RawSub)
    (om : List (String × List (String × ℕ))) :
    List (WideRow × List (String × Option ℚ)) :=
  compute_composites (build_blocks_wide_rows records om)

/-- The claim's reconstruction: pivot the long table back to one value per
`(participant, condition, item)`.  Canonical inputs have at most one such
row. -/
def pivotLongItem (long : List LongRow) (pid : Option String) (cond i : String) :
    Option ℚ :=
  (long.find? (fun lr =>
    lr.participant_id == pid && lr.condition == cond && lr.item == i)).bind
    (fun lr => lr.value)

/-- Item columns of the reconstructed wide table: items appearing in a
pre/post long row. -/
def reconItemCols (long : List LongRow) : List String :=
  (long.filter (fun lr => lr.phase == "pre" || lr.phase == "post")).map
    (fun lr => lr.item)

/-- Specification-side composite formula (spec section 4.5, named for the
refinement comparison): the mean over the non-null constituent items after
applying `reverse(v) = scale_max + scale_min - v` to the reversal subset,
null exactly when no constituent is present. -/
def specComposite (lookup : String → Option ℚ) (items rev : List String)
    (smin smax : ℚ) : Option ℚ :=
  let vals := items.filterMap (fun i =>
    (lookup i).map (fun v => if rev.contains i then smax + smin - v else v))
  if vals.isEmpty then none else some (vals.sum / (vals.length : ℚ))

namespace AnalyseV2

/-- Embedding of `compute_intermediality_index` on one row of `post_df`
(whose six required columns the source asserts to exist): B5 and B6 are
mirrored on the 1..7 scale and the row mean is taken with `skipna=False`,
so a single missing cell makes the index NaN. -/
def compute_intermediality_index (lookup : String → Option ℚ) : Option ℚ :=
  match lookup "B_1", lookup "B_2", lookup "B_3", lookup "B_4",
      lookup "B_5", lookup "B_6" with
  | some b1, some b2, some b3, some b4, some b5, some b6 =>
    some ((b1 + b2 + b3 + b4 + (8 - b5) + (8 - b6)) / 6)
  | _, _, _, _, _, _ => none

/-- Section routing of `build_tables` for pre rows: after the session-level
literals, a section starting with `block_` and ending with `_pre` that splits
into at least three parts contributes a row whose condition is the
upper-cased second part. -/
def classifyPre (sk : String) : Option String :=
  if sk = "meta" ∨ sk = "background" ∨ sk = "end" then none
  else if pyStartsWith sk "block_" && pyEndsWith sk "_pre" then
    let parts := pySplit sk '_'
    if 3 ≤ parts.length then some (pyUpper (parts.getD 1 "")) else none
  else none

/-- Section routing of `build_tables` for post rows. -/
def classifyPost (sk : String) : Option String :=
  if sk = "meta" ∨ sk = "background" ∨ sk = "end" then none
  else if pyStartsWith sk "block_" && pyEndsWith sk "_pre" then none
  else if pyStartsWith sk "block_" && pyEndsWith sk "_post" then
    let parts := pySplit sk '_'
    if 3 ≤ parts.length then some (pyUpper (parts.getD 1 "")) else none
  else none

/-- Condition of a pre row surviving `build_tables`' normalisation filter
(`condition.str.upper().isin(CONDITION_ORDER)`). -/
def keptPreCond (sk : String) : Option String :=
  match classifyPre sk with
  | some c => if CONDITION_ORDER.contains (pyUpper c) then some (pyUpper c) else none
  | none => none

/-- Condition of a post row surviving the normalisation filter. -/
def keptPostCond (sk : String) : Option String :=
  match classifyPost sk with
  | some c => if CONDITION_ORDER.contains (pyUpper c) then some (pyUpper c) else none
  | none => none

end AnalyseV2

/-- Suffix minima of a list: the value of the source's backward monotonicity
loop (`adj[order[i]] = min(adj[order[i]], adj[order[i+1]])`, descending). -/
def suffixMins : List ℚ → List ℚ
  | [] => []
  | a :: t => min a ((suffixMins t).headD a) :: suffixMins t

/-- Embedding of `np.argsort(pvals)`: indices sorted by p-value.  A
deterministic insertion sort stands in for numpy's unstable introsort; ties
between equal p-values are resolved arbitrarily by either, and no property
proven depends on the tie order. -/
def argsortIdx (ps : List ℚ) : List ℕ :=
  (List.range ps.length).insertionSort (fun i j => ps.getD i 0 ≤ ps.getD j 0)

/-- Adjusted p-values in ascending-raw-p order: the forward pass stores
`min((m - i) * p, 1)` for the i-th smallest raw p, and the backward pass
replaces each entry by the suffix minimum. -/
def holmAdjSorted (ps : List ℚ) : List ℚ :=
  let m := ps.length
  suffixMins (((argsortIdx ps).enum).map (fun p =>
    min (((m - p.1 : ℕ) : ℚ) * ps.getD p.2 0) 1))

/-- Embedding of `holm_correction` (identical in the analyse script and
`Results_2/os_results_from_json.py`): the sorted adjusted values scattered
back to the original positions. -/
def holm_correction (ps : List ℚ) : List ℚ :=
  (List.range ps.length).map (fun j =>
    (holmAdjSorted ps).getD ((argsortIdx ps).indexOf j) 0)

/-- Embedding of `kendalls_w_from_friedman`. -/
def kendalls_w_from_friedman (chi2 : ℚ) (n k : ℕ) : Option ℚ :=
  if n ≤ 0 ∨ k ≤ 1 then none
  else some (chi2 / ((n : ℚ) * ((k : ℚ) - 1)))

/-- One observation of a fixed item in `blocks_df`: participant, condition,
and the item's (possibly missing) value in that row. -/
structure Obs where
  participant_id : String
  condition : String
  value : Option ℚ

/-- Cell of `pivot_table(index="participant_id", columns="condition",
aggfunc="first")`: the first non-null value among the rows of the group
(`pivot_table` drops null values before aggregating). -/
def pivotVal (data : List Obs) (p c : String) : Option ℚ :=
  ((data.filter (fun o => o.participant_id == p && o.condition == c)).filterMap
    (fun o => o.value)).head?

/-- Distinct participants in pivot-index order (pandas sorts the index). -/
def sortedPids (data : List Obs) : List String :=
  (dedupFirst (data.map (fun o => o.participant_id))).insertionSort
    (fun a b => pyStrLt a b = true ∨ a = b)

/-- Condition columns of the pivot table: conditions holding at least one
non-null value. -/
def pivotColumns (data : List Obs) : List String :=
  dedupFirst (data.filterMap (fun o =>
    if o.value.isSome then some o.condition else none))

/-- Complete cases of `friedman_item`
(`wide[CONDITION_ORDER].dropna()`): participants with a value in every
condition of the fixed alphabet. -/
def completeCases (data : List Obs) : List String :=
  (sortedPids data).filter (fun p =>
    CONDITION_ORDER.all (fun c => (pivotVal data p c).isSome))

/-- Complete-case matrix rows handed to `friedmanchisquare`. -/
def friedmanMatrix (data : List Obs) : List (String × (ℚ × ℚ × ℚ)) :=
  (completeCases data).filterMap (fun p =>
    match pivotVal data p "A", pivotVal data p "B", pivotVal data p "C" with
    | some a, some b, some c => some (p, (a, b, c))
    | _, _, _ => none)

/-- Paired complete cases of one Wilcoxon pair (`wide[[x, y]].dropna()`). -/
def pairCases (data : List Obs) (x y : String) : List String :=
  (sortedPids data).filter (fun p =>
    (pivotVal data p x).isSome && (pivotVal data p y).isSome)

/-- Paired values handed to `wilcoxon` for one pair. -/
def pairedVals (data : List Obs) (x y : String) : List (ℚ × ℚ) :=
  (sortedPids data).filterMap (fun p =>
    match pivotVal data p x, pivotVal data p y with
    | some a, some b => some (a, b)
    | _, _ => none)

/-- Values entering `describe_by_condition` for one condition
(`df.loc[df["condition"] == c, item].dropna()`). -/
def descValues (data : List Obs) (c : String) : List ℚ :=
  (data.filter (fun o => o.condition == c)).filterMap (fun o => o.value)

/-- The `n` column of the descriptive table. -/
def descN (data : List Obs) (c : String) : ℕ := (descValues data c).length

/-- The `mean` column of the descriptive table (`None` for an empty group). -/
def descMean (data : List Obs) (c : String) : Option ℚ :=
  let vs := descValues data c
  if vs.isEmpty then none else some (vs.sum / (vs.length : ℚ))

/-- Structured result row of `friedman_item`. -/
structure FriedmanResult where
  item : String
  n : ℕ
  chi2 : Option ℚ
  p : Option ℚ
  kendalls_w : Option ℚ
  note : Option String

/-- Embedding of `friedman_item`, parametrised by the external
`scipy.stats.friedmanchisquare` call (an `Except` models a raised
exception).  The guards return structured null results with a note; the
scipy call itself is unguarded in the source, so its exception propagates. -/
def friedman_item
    (fried : List ℚ → List ℚ → List ℚ → Except String (ℚ × ℚ))
    (item : String) (data : List Obs) : Except String FriedmanResult :=
  if ¬ (CONDITION_ORDER.all (fun c => (pivotColumns data).contains c)) then
    .ok { item := item, n := 0, chi2 := none, p := none, kendalls_w := none,
          note := some "missing conditions in data" }
  else
    let cc := friedmanMatrix data
    if cc.length < 3 then
      .ok { item := item, n := 0, chi2 := none, p := none, kendalls_w := none,
            note := some "insufficient complete cases" }
    else do
      let sp ← fried (cc.map (fun r => r.2.1)) (cc.map (fun r => r.2.2.1))
        (cc.map (fun r => r.2.2.2))
      .ok { item := item, n := cc.length, chi2 := some sp.1, p := some sp.2,
            kendalls_w := kendalls_w_from_friedman sp.1 cc.length 3,
            note := none }

/-- One row of the pairwise Wilcoxon table. -/
structure PairRow where
  item : String
  pair : String
  n : ℕ
  stat : Option ℚ
  p : Option ℚ
  p_holm : Option ℚ

/-- The three unordered condition pairs tested by `wilcoxon_pairs`. -/
def wilcoxonPairList : List (String × String) := [("A", "B"), ("A", "C"), ("B", "C")]

/-- Pair loop of `wilcoxon_pairs`: fewer than three paired observations give
a null row; otherwise the external `scipy.stats.wilcoxon` runs unguarded and
its exception propagates. -/
def wilcoxonLoop (wilc : List ℚ → List ℚ → Except String (ℚ × ℚ))
    (item : String) (data : List Obs) :
    List (String × String) → Except String (List PairRow)
  | [] => .ok []
  | xy :: rest => do
    let w := pairedVals data xy.1 xy.2
    if w.length < 3 then do
      let rows ← wilcoxonLoop wilc item data rest
      pure ({ item := item, pair := xy.1 ++ "-" ++ xy.2, n := w.length,
              stat := none, p := none, p_holm := none } :: rows)
    else do
      let sp ← wilc (w.map (fun v => v.1)) (w.map (fun v => v.2))
      let rows ← wilcoxonLoop wilc item data rest
      pure ({ item := item, pair := xy.1 ++ "-" ++ xy.2, n := w.length,
              stat := some sp.1, p := some sp.2, p_holm := none } :: rows)

/-- Holm assignment over the valid p-values of the pair rows
(`valid_idx` scatter in the source). -/
def attachHolm (rows : List PairRow) : List PairRow :=
  let adj := holm_correction (rows.filterMap (fun r => r.p))
  go rows adj
where
  go : List PairRow → List ℚ → List PairRow
    | [], _ => []
    | r :: rs, adj =>
      match r.p with
      | some _ => { r with p_holm := adj.head? } :: go rs adj.tail
      | none => { r with p_holm := none } :: go rs adj

/-- Embedding of `wilcoxon_pairs`, parametrised by the external
`scipy.stats.wilcoxon` call. -/
def wilcoxon_pairs (wilc : List ℚ → List ℚ → Except String (ℚ × ℚ))
    (item : String) (data : List Obs) : Except String (List PairRow) :=
  if ¬ (CONDITION_ORDER.all (fun c => (pivotColumns data).contains c)) then
    .ok [{ item := item, pair := "", n := 0, stat := none, p := none,
           p_holm := none }]
  else do
    let rows ← wilcoxonLoop wilc item data wilcoxonPairList
    pure (attachHolm rows)

/-- Winner of a left fold of `ioLatestPick` over the records sharing one
key, in ingestion order: the characterization of `select_latest`'s stored
value per key. -/
def ioFoldPick (acc : Option RawSub) (r : RawSub) : Option RawSub :=
  match acc with
  | none => some r
  | some e => some (IoIngest.ioLatestPick e r)

/-- Minimal stand-in for `scipy.stats.wilcoxon` used to instantiate the
external-call parameter in witnesses: per the scipy documentation,
`zero_method="wilcox"` discards zero differences and the call raises when
`x - y` is zero for all elements.  The statistic returned on the non-error
path is irrelevant to every property proven. -/
def scipyWilcoxonStub (xs ys : List ℚ) : Except String (ℚ × ℚ) :=
  if xs = ys then
    .error "zero_method wilcox and pratt do not work if x - y is zero for all elements"
  else .ok (0, 1)

/-- Predicate picking the block record of one phase for one wide key: the
record's section parses as a block of the given phase, for the key's
participant and condition. -/
def blockMatches (phase : String) (key : Option String × String) (r : RawSub) :
    Bool :=
  match parseBlockSection (r.section_key.getD "") with
  | some cp => decide (cp.2 = phase) && (r.participant_id == key.1) && (cp.1 == key.2)
  | none => false

/-- Degenerate blocks data: three participants rating one item 4 in all of
the three conditions (zero variance everywhere). -/
def zeroVarianceBlocks : List Obs :=
  [ ⟨"p1", "A", some 4⟩, ⟨"p1", "B", some 4⟩, ⟨"p1", "C", some 4⟩,
    ⟨"p2", "A", some 4⟩, ⟨"p2", "B", some 4⟩, ⟨"p2", "C", some 4⟩,
    ⟨"p3", "A", some 4⟩, ⟨"p3", "B", some 4⟩, ⟨"p3", "C", some 4⟩ ]

/-- C10: reverse coding is a scale-preserving involution: applying
`reverse_code` twice returns any numeric value unchanged; a value within
`[scale_min, scale_max]` is mapped back into that interval; and the result
is `None` exactly when the input is `None` or NaN. -/
theorem reverse_code_involution_scale_none :
    (∀ (q smin smax : ℚ),
      reverse_code (FloatVal.ofOpt (reverse_code (.fnum q) smin smax)) smin smax
        = some q) ∧
    (∀ (q smin smax : ℚ), smin ≤ q → q ≤ smax →
      reverse_code (.fnum q) smin smax = some (smax + smin - q) ∧
      smin ≤ smax + smin - q ∧ smax + smin - q ≤ smax) ∧
    (∀ (v : FloatVal) (smin smax : ℚ),
      reverse_code v smin smax = none ↔ v = .fnone ∨ v = .fnan) := by
  refine ⟨?_, ?_, ?_⟩
  · intro q smin smax
    simp [reverse_code, FloatVal.ofOpt]
  · intro q smin smax h1 h2
    refine ⟨rfl, by linarith, by linarith⟩
  · intro v smin smax
    cases v <;> simp [reverse_code]

/-- Witness for C10 at the concrete Likert value 2 on the default 1..7
scale. -/
theorem reverse_code_c10_witness :
    (1 : ℚ) ≤ 2 ∧ (2 : ℚ) ≤ 7 ∧ reverse_code (.fnum 2) 1 7 = some 6 := by
  refine ⟨by norm_num, by norm_num, ?_⟩
  have h := (reverse_code_involution_scale_none.2.1 2 1 7 (by norm_num)
    (by norm_num)).1
  rw [h]
  norm_num

theorem suffixMins_length (l : List ℚ) : (suffixMins l).length = l.length := by
  induction l with
  | nil => rfl
  | cons a t ih => simp [suffixMins, ih]

theorem suffixMins_sorted (l : List ℚ) : (suffixMins l).Sorted (· ≤ ·) := by
  induction l with
  | nil => simp [suffixMins]
  | cons a t ih =>
    rw [suffixMins, List.sorted_cons]
    refine ⟨?_, ih⟩
    intro b hb
    have hh : (suffixMins t).headD a ≤ b := by
      cases hsm : suffixMins t with
      | nil =>
        rw [hsm] at hb
        simp at hb
      | cons x xs =>
        rw [hsm] at hb ih
        simp only [List.headD_cons]
        rcases List.mem_cons.mp hb with rfl | hb2
        · exact le_refl b
        · rw [List.sorted_cons] at ih
          exact ih.1 b hb2
    exact le_trans (min_le_right _ _) hh

theorem headD_eq_getD_zero (l : List ℚ) (d : ℚ) (h : l ≠ []) :
    l.headD d = l.getD 0 0 := by
  cases l with
  | nil => exact absurd rfl h
  | cons x xs => rfl

theorem suffixMins_ne_nil (l : List ℚ) (h : l ≠ []) : suffixMins l ≠ [] := by
  cases l with
  | nil => exact absurd rfl h
  | cons a t => simp [suffixMins]

theorem suffixMins_exists (l : List ℚ) (k : ℕ) (hk : k < l.length) :
    ∃ i, k ≤ i ∧ i < l.length ∧ (suffixMins l).getD k 0 = l.getD i 0 := by
  induction l generalizing k with
  | nil => simp at hk
  | cons a t ih =>
    cases k with
    | zero =>
      rcases le_total a ((suffixMins t).headD a) with h | h
      · refine ⟨0, le_refl 0, hk, ?_⟩
        show min a ((suffixMins t).headD a) = a
        exact min_eq_left h
      · cases t with
        | nil =>
          refine ⟨0, le_refl 0, hk, ?_⟩
          show min a ((suffixMins ([] : List ℚ)).headD a) = a
          simp [suffixMins]
        | cons b t2 =>
          obtain ⟨i, hki, hi, heq⟩ := ih 0 (by simp)
          refine ⟨i + 1, by omega, by simpa using hi, ?_⟩
          have hne : suffixMins (b :: t2) ≠ [] :=
            suffixMins_ne_nil _ (by simp)
          calc (suffixMins (a :: b :: t2)).getD 0 0
              = min a ((suffixMins (b :: t2)).headD a) := rfl
            _ = (suffixMins (b :: t2)).headD a := min_eq_right h
            _ = (suffixMins (b :: t2)).getD 0 0 := headD_eq_getD_zero _ _ hne
            _ = (b :: t2).getD i 0 := heq
            _ = (a :: b :: t2).getD (i + 1) 0 := rfl
    | succ k2 =>
      obtain ⟨i, hki, hi, heq⟩ := ih k2 (by simpa using hk)
      refine ⟨i + 1, by omega, by simpa using hi, ?_⟩
      calc (suffixMins (a :: t)).getD (k2 + 1) 0
          = (suffixMins t).getD k2 0 := rfl
        _ = t.getD i 0 := heq
        _ = (a :: t).getD (i + 1) 0 := rfl

/-- Index permutation facts for `argsortIdx`. -/
theorem argsortIdx_perm (ps : List ℚ) :
    (argsortIdx ps).Perm (List.range ps.length) :=
  List.perm_insertionSort _ _

theorem argsortIdx_length (ps : List ℚ) :
    (argsortIdx ps).length = ps.length := by
  simpa using (argsortIdx_perm ps).length_eq

theorem argsortIdx_mem (ps : List ℚ) (j : ℕ) (h : j < ps.length) :
    j ∈ argsortIdx ps := by
  have := (argsortIdx_perm ps).mem_iff (a := j)
  rw [this]
  simpa using h

theorem argsortIdx_sorted (ps : List ℚ) :
    List.Sorted (fun i j => ps.getD i 0 ≤ ps.getD j 0) (argsortIdx ps) := by
  haveI : IsTotal ℕ (fun i j => ps.getD i 0 ≤ ps.getD j 0) :=
    ⟨fun a b => le_total _ _⟩
  haveI : IsTrans ℕ (fun i j => ps.getD i 0 ≤ ps.getD j 0) :=
    ⟨fun a b c hab hbc => le_trans hab hbc⟩
  exact List.sorted_insertionSort _ _

theorem argsortIdx_entry_lt (ps : List ℚ) (i : ℕ) (hi : i < (argsortIdx ps).length) :
    (argsortIdx ps).getD i 0 < ps.length := by
  rw [List.getD_eq_getElem _ _ hi]
  have hmem : (argsortIdx ps)[i] ∈ argsortIdx ps := List.getElem_mem hi
  have := (argsortIdx_perm ps).mem_iff.mp hmem
  simpa using this

/-- Value of the forward Holm pass at a sorted position. -/
theorem holmForward_getD (ps : List ℚ) (i : ℕ) (hi : i < ps.length) :
    (((argsortIdx ps).enum).map (fun p =>
      min (((ps.length - p.1 : ℕ) : ℚ) * ps.getD p.2 0) 1)).getD i 0 =
      min (((ps.length - i : ℕ) : ℚ) * ps.getD ((argsortIdx ps).getD i 0) 0) 1 := by
  have hi2 : i < (argsortIdx ps).enum.length := by
    rw [List.enum_length, argsortIdx_length]; exact hi
  have hi3 : i < (argsortIdx ps).length := by
    rw [argsortIdx_length]; exact hi
  rw [List.getD_eq_getElem _ _ (by simpa using hi2), List.getElem_map,
    List.getElem_enum, List.getD_eq_getElem _ _ hi3]

/-- C4: for a non-empty list of raw p-values in [0, 1], `holm_correction`
computes `min((m - i) * p, 1)` for the i-th smallest raw p and then takes
backward running minima; consequently the output has one adjusted value per
raw value, every adjusted value lies between its raw p-value and 1, and the
adjusted values are non-decreasing in ascending raw-p order. -/
theorem holm_correction_c4 (ps : List ℚ) (hne : ps ≠ [])
    (hbd : ∀ p ∈ ps, 0 ≤ p ∧ p ≤ 1) :
    (holm_correction ps).length = ps.length ∧
    (∀ j, j < ps.length →
      ps.getD j 0 ≤ (holm_correction ps).getD j 0 ∧
      (holm_correction ps).getD j 0 ≤ 1) ∧
    List.Sorted (fun a b => a ≤ b) (holmAdjSorted ps) := by
  have hflen : (((argsortIdx ps).enum).map (fun p =>
      min (((ps.length - p.1 : ℕ) : ℚ) * ps.getD p.2 0) 1)).length = ps.length := by
    simp [List.enum_length, argsortIdx_length]
  have hadj : holmAdjSorted ps = suffixMins (((argsortIdx ps).enum).map (fun p =>
      min (((ps.length - p.1 : ℕ) : ℚ) * ps.getD p.2 0) 1)) := rfl
  refine ⟨by simp [holm_correction], ?_, ?_⟩
  · intro j hj
    have hjmem : j ∈ argsortIdx ps := argsortIdx_mem ps j hj
    have hk : (argsortIdx ps).indexOf j < (argsortIdx ps).length :=
      List.indexOf_lt_length.mpr hjmem
    have hkm : (argsortIdx ps).indexOf j < ps.length := by
      rw [argsortIdx_length] at hk
      exact hk
    have hholm : (holm_correction ps).getD j 0 =
        (holmAdjSorted ps).getD ((argsortIdx ps).indexOf j) 0 := by
      have hj2 : j < ((List.range ps.length).map (fun j =>
          (holmAdjSorted ps).getD ((argsortIdx ps).indexOf j) 0)).length := by
        simp [hj]
      rw [holm_correction, List.getD_eq_getElem _ _ hj2, List.getElem_map,
        List.getElem_range]
    obtain ⟨i0, hki0, hi0, heq⟩ := suffixMins_exists _ ((argsortIdx ps).indexOf j)
      (by rw [hflen]; exact hkm)
    rw [hflen] at hi0
    rw [hholm, hadj, heq, holmForward_getD ps i0 hi0]
    have hσi0 : i0 < (argsortIdx ps).length := by
      rw [argsortIdx_length]
      exact hi0
    have hentry : (argsortIdx ps).getD i0 0 < ps.length :=
      argsortIdx_entry_lt ps i0 hσi0
    have hmem2 : ps.getD ((argsortIdx ps).getD i0 0) 0 ∈ ps := by
      rw [List.getD_eq_getElem _ _ hentry]
      exact List.getElem_mem hentry
    have hsp0 : 0 ≤ ps.getD ((argsortIdx ps).getD i0 0) 0 := (hbd _ hmem2).1
    have hcoef : (1 : ℚ) ≤ ((ps.length - i0 : ℕ) : ℚ) := by
      have h1 : 1 ≤ ps.length - i0 := by omega
      exact_mod_cast h1
    have hjmem2 : ps.getD j 0 ∈ ps := by
      rw [List.getD_eq_getElem _ _ hj]
      exact List.getElem_mem hj
    have hgk : (argsortIdx ps).getD ((argsortIdx ps).indexOf j) 0 = j := by
      rw [List.getD_eq_getElem _ _ hk]
      exact List.getElem_indexOf hk
    have hspk : ps.getD j 0 ≤ ps.getD ((argsortIdx ps).getD i0 0) 0 := by
      rcases eq_or_lt_of_le hki0 with heq2 | hlt
    
      · rw [← heq2, hgk]
      · have hp := List.pairwise_iff_getElem.mp (argsortIdx_sorted ps)
        have hrel := hp ((argsortIdx ps).indexOf j) i0 hk hσi0 hlt
        rw [← List.getD_eq_getElem _ 0 hk, ← List.getD_eq_getElem _ 0 hσi0] at hrel
        rw [hgk] at hrel
        exact hrel
    constructor
    · exact le_min (le_trans hspk (le_mul_of_one_le_left hsp0 hcoef))
        (hbd _ hjmem2).2
    · exact min_le_right _ _
  · rw [hadj]
    exact suffixMins_sorted _

/-- Witness for C4 at the spec's example raw p-values 0.01, 0.02, 0.04. -/
theorem holm_correction_c4_witness :
    ([(1 : ℚ)/100, 1/50, 1/25] ≠ []) ∧
    (∀ p ∈ [(1 : ℚ)/100, 1/50, 1/25], 0 ≤ p ∧ p ≤ 1) ∧
    (holm_correction [(1 : ℚ)/100, 1/50, 1/25]).length = 3 ∧
    List.Sorted (fun a b => a ≤ b) (holmAdjSorted [(1 : ℚ)/100, 1/50, 1/25]) := by
  have h1 : ([(1 : ℚ)/100, 1/50, 1/25] ≠ []) := by simp
  have h2 : ∀ p ∈ [(1 : ℚ)/100, 1/50, 1/25], 0 ≤ p ∧ p ≤ 1 := by
    intro p hp
    simp only [List.mem_cons, List.not_mem_nil, or_false] at hp
    rcases hp with rfl | rfl | rfl <;> norm_num
  have h := holm_correction_c4 [(1 : ℚ)/100, 1/50, 1/25] h1 h2
  refine ⟨h1, h2, ?_, h.2.2⟩
  rw [h.1]
  rfl

theorem wilcoxonLoop_error (wilc : List ℚ → List ℚ → Except String (ℚ × ℚ))
    (item : String) (data : List Obs) (x y : String)
    (rest : List (String × String)) (msg : String)
    (h3 : ¬ (pairedVals data x y).length < 3)
    (hw : wilc ((pairedVals data x y).map (fun v => v.1))
      ((pairedVals data x y).map (fun v => v.2)) = .error msg) :
    wilcoxonLoop wilc item data ((x, y) :: rest) = .error msg := by
  unfold wilcoxonLoop
  simp only [if_neg h3, hw]
  rfl

/-- C5: the claim that the testing engine never raises on degenerate input
fails in the code: on a zero-variance blocks table with three complete
participants, `wilcoxon_pairs` reaches the unguarded external
`scipy.stats.wilcoxon` call on identical paired columns, whose documented
zero-difference `ValueError` then propagates out of the engine uncaught.
The sub-3 guards do return structured null rows, so the exception is the
only escape hatch. -/
theorem wilcoxon_pairs_zero_variance_raises
    (wilc : List ℚ → List ℚ → Except String (ℚ × ℚ)) (msg : String)
    (hw : wilc [4, 4, 4] [4, 4, 4] = .error msg) :
    wilcoxon_pairs wilc "A_1" zeroVarianceBlocks = .error msg := by
  have hx : (pairedVals zeroVarianceBlocks "A" "B").map (fun v => v.1) =
      ([4, 4, 4] : List ℚ) := by decide
  have hy : (pairedVals zeroVarianceBlocks "A" "B").map (fun v => v.2) =
      ([4, 4, 4] : List ℚ) := by decide
  have h3 : ¬ (pairedVals zeroVarianceBlocks "A" "B").length < 3 := by decide
  have hcols : (CONDITION_ORDER.all
      (fun c => (pivotColumns zeroVarianceBlocks).contains c)) = true := by decide
  have hloop := wilcoxonLoop_error wilc "A_1" zeroVarianceBlocks "A" "B"
    [("A", "C"), ("B", "C")] msg h3 (by rw [hx, hy]; exact hw)
  unfold wilcoxon_pairs
  rw [hcols]
  simp only [not_true, if_false]
  rw [show wilcoxonPairList = ("A", "B") :: [("A", "C"), ("B", "C")] from rfl]
  rw [hloop]
  rfl

/-- Witness for C5: the scipy stand-in satisfies the documented
zero-difference error behaviour, and the engine propagates that error on the
concrete degenerate table. -/
theorem wilcoxon_pairs_zero_variance_witness :
    scipyWilcoxonStub [4, 4, 4] [4, 4, 4] =
      .error "zero_method wilcox and pratt do not work if x - y is zero for all elements" ∧
    wilcoxon_pairs scipyWilcoxonStub "A_1" zeroVarianceBlocks =
      .error "zero_method wilcox and pratt do not work if x - y is zero for all elements" := by
  have hstub : scipyWilcoxonStub [4, 4, 4] [4, 4, 4] =
      .error "zero_method wilcox and pratt do not work if x - y is zero for all elements" := by
    unfold scipyWilcoxonStub
    rw [if_pos rfl]
  exact ⟨hstub, wilcoxon_pairs_zero_variance_raises scipyWilcoxonStub _ hstub⟩

/-- C7: a participant whose pivot cell for some tested condition is null is
excluded from the Friedman complete cases and from every Wilcoxon pair
involving that condition, while every non-null value they did submit still
occurs in the value multiset of the per-condition descriptive statistics. -/
theorem complete_case_exclusion_c7 (data : List Obs) (pid c0 : String)
    (hc0 : c0 ∈ CONDITION_ORDER)
    (hnull : pivotVal data pid c0 = none) :
    pid ∉ completeCases data ∧
    (∀ x y, (x, y) ∈ wilcoxonPairList → x = c0 ∨ y = c0 →
      pid ∉ pairCases data x y) ∧
    (∀ o ∈ data, o.participant_id = pid → ∀ v, o.value = some v →
      v ∈ descValues data o.condition ∧ 0 < descN data o.condition) := by
  refine ⟨?_, ?_, ?_⟩
  · intro hmem
    have h2 := (List.mem_filter.mp hmem).2
    rw [List.all_eq_true] at h2
    have h3 := h2 c0 hc0
    rw [hnull] at h3
    simp at h3
  · intro x y _hxy hc hmem
    have h2 := (List.mem_filter.mp hmem).2
    rcases hc with rfl | rfl
    · rw [hnull] at h2
      simp at h2
    · rw [hnull] at h2
      simp at h2
  · intro o ho hopid v hv
    have hmem : v ∈ descValues data o.condition := by
      rw [descValues]
      apply List.mem_filterMap.mpr
      refine ⟨o, ?_, hv⟩
      apply List.mem_filter.mpr
      exact ⟨ho, by simp⟩
    refine ⟨hmem, ?_⟩
    rw [descN]
    exact List.length_pos.mpr (List.ne_nil_of_mem hmem)

/-- Witness for C7: participant p1 misses condition C, participant p2 is
complete. -/
theorem complete_case_exclusion_c7_witness :
    ("C" ∈ CONDITION_ORDER) ∧
    pivotVal [⟨"p1", "A", some 7⟩, ⟨"p1", "B", some 4⟩, ⟨"p1", "C", none⟩,
      ⟨"p2", "A", some 4⟩, ⟨"p2", "B", some 4⟩, ⟨"p2", "C", some 4⟩]
      "p1" "C" = none ∧
    "p1" ∉ completeCases [⟨"p1", "A", some 7⟩, ⟨"p1", "B", some 4⟩,
      ⟨"p1", "C", none⟩, ⟨"p2", "A", some 4⟩, ⟨"p2", "B", some 4⟩,
      ⟨"p2", "C", some 4⟩] := by
  have h1 : ("C" ∈ CONDITION_ORDER) := by decide
  have h2 : pivotVal [⟨"p1", "A", some 7⟩, ⟨"p1", "B", some 4⟩,
      ⟨"p1", "C", none⟩, ⟨"p2", "A", some 4⟩, ⟨"p2", "B", some 4⟩,
      ⟨"p2", "C", some 4⟩] "p1" "C" = none := by decide
  exact ⟨h1, h2, (complete_case_exclusion_c7 _ "p1" "C" h1 h2).1⟩

/-- C3 counterexample: on a post row missing only B_1 (five constituents
present, value 4), the analyse script's intermediality index is null, so the
claimed "null iff no constituent present" equivalence fails on
`compute_intermediality_index` (its row mean uses `skipna=False`). -/
theorem intermediality_skipna_counterexample :
    AnalyseV2.compute_intermediality_index
      (fun i => if i = "B_1" then none
        else if i ∈ ["B_2", "B_3", "B_4", "B_5", "B_6"] then some 4 else none)
      = none ∧
    (∃ cm, ("Intermediality Index", cm) ∈ CONSTRUCTS ∧ "B_2" ∈ cm.items) ∧
    (fun i => if i = "B_1" then none
      else if i ∈ ["B_2", "B_3", "B_4", "B_5", "B_6"] then some (4 : ℚ) else none)
      "B_2" = some 4 := by
  refine ⟨by decide, ⟨⟨["B_1", "B_2", "B_3", "B_4", "B_5", "B_6"],
    ["B_5", "B_6"], "mean(reverse-coded B1-B6)",
    "Higher values indicate stronger intermedial coherence"⟩, by decide, by decide⟩,
    by decide⟩

/-- C3 (amended): the modular `compute_composites` satisfies the claim: on a
wide row whose unavailable columns are indeed absent, its composite equals
the spec-side mean over present constituents with reversal applied, and that
spec composite is null exactly when no constituent is present.  The analyse
script's `compute_intermediality_index`, by contrast, is null exactly when
any of B_1..B_6 is missing. -/
theorem compositeVals_eq (lookup : String → Option ℚ) (rev cols : List String) :
    ∀ items : List String,
    (∀ i ∈ items, cols.contains i = false → lookup i = none) →
    (items.filter (fun i => cols.contains i)).filterMap (fun i =>
      if rev.contains i then colReverse (lookup i) else lookup i) =
    items.filterMap (fun i =>
      (lookup i).map (fun v => if rev.contains i then 7 + 1 - v else v)) := by
  intro items
  induction items with
  | nil => intro _; rfl
  | cons a t ih =>
    intro habs
    have iht := ih (fun i hi h => habs i (List.mem_cons_of_mem a hi) h)
    by_cases hca : cols.contains a
    · rw [List.filter_cons_of_pos (by simpa using hca)]
      by_cases hra : rev.contains a
      · simp only [List.filterMap_cons, hra, if_pos, colReverse, reverse_code]
        cases hla : lookup a with
        | none => simpa [hla, Option.bind] using iht
        | some v => simpa [hla, Option.bind] using iht
      · simp only [List.filterMap_cons, hra, if_neg, Bool.false_eq_true, if_false]
        cases hla : lookup a with
        | none => simpa [hla] using iht
        | some v => simpa [hla] using iht
    · rw [List.filter_cons_of_neg (by simpa using hca)]
      have hnone : lookup a = none :=
        habs a (List.mem_cons_self a t) (by simpa using hca)
      rw [List.filterMap_cons, hnone]
      simpa using iht

theorem composite_amended_c3 :
    (∀ (lookup : String → Option ℚ) (cm : ConstructMeta) (cols : List String),
      (∀ i ∈ cm.items, cols.contains i = false → lookup i = none) →
      compositeValCols lookup cm cols =
        specComposite lookup cm.items cm.reverse 1 7) ∧
    (∀ (lookup : String → Option ℚ) (items rev : List String) (smin smax : ℚ),
      specComposite lookup items rev smin smax = none ↔
        ∀ i ∈ items, lookup i = none) ∧
    (∀ lookup : String → Option ℚ,
      AnalyseV2.compute_intermediality_index lookup = none ↔
        (lookup "B_1" = none ∨ lookup "B_2" = none ∨ lookup "B_3" = none ∨
         lookup "B_4" = none ∨ lookup "B_5" = none ∨ lookup "B_6" = none)) := by
  refine ⟨?_, ?_, ?_⟩
  · intro lookup cm cols habs
    have hvals := compositeVals_eq lookup cm.reverse cols cm.items habs
    rw [compositeValCols, specComposite]
    simp only [hvals]
  · intro lookup items rev smin smax
    rw [specComposite]
    simp only [List.isEmpty_iff]
    constructor
    · intro h
      by_cases hnil : items.filterMap (fun i =>
          (lookup i).map (fun v => if rev.contains i then smax + smin - v else v)) = []
      · intro i hi
        have := (List.filterMap_eq_nil.mp hnil) i hi
        exact Option.map_eq_none.mp this
      · rw [if_neg hnil] at h
        exact absurd h (by simp)
    · intro h
      have hnil : items.filterMap (fun i =>
          (lookup i).map (fun v => if rev.contains i then smax + smin - v else v)) = [] := by
        apply List.filterMap_eq_nil.mpr
        intro i hi
        rw [h i hi]
        rfl
      rw [if_pos hnil]
  · intro lookup
    unfold AnalyseV2.compute_intermediality_index
    cases h1 : lookup "B_1" <;> cases h2 : lookup "B_2" <;>
      cases h3 : lookup "B_3" <;> cases h4 : lookup "B_4" <;>
      cases h5 : lookup "B_5" <;> cases h6 : lookup "B_6" <;> simp_all

/-- Witness for C3 at a concrete one-column row. -/
theorem composite_amended_c3_witness :
    (∀ i ∈ (⟨["B_7", "B_8"], [], "mean(B7, B8)",
        "Higher values indicate stronger expectation shifts"⟩ : ConstructMeta).items,
      (["B_7", "B_8"] : List String).contains i = false →
      (fun j => if j = "B_7" then some (4 : ℚ) else if j = "B_8" then some 6 else none) i = none) ∧
    compositeValCols
      (fun j => if j = "B_7" then some (4 : ℚ) else if j = "B_8" then some 6 else none)
      ⟨["B_7", "B_8"], [], "mean(B7, B8)",
        "Higher values indicate stronger expectation shifts"⟩
      ["B_7", "B_8"] =
    specComposite
      (fun j => if j = "B_7" then some (4 : ℚ) else if j = "B_8" then some 6 else none)
      ["B_7", "B_8"] [] 1 7 := by
  have hab : ∀ i ∈ (⟨["B_7", "B_8"], [], "mean(B7, B8)",
      "Higher values indicate stronger expectation shifts"⟩ : ConstructMeta).items,
      (["B_7", "B_8"] : List String).contains i = false →
      (fun j => if j = "B_7" then some (4 : ℚ) else if j = "B_8" then some 6 else none) i = none := by
    decide
  exact ⟨hab, composite_amended_c3.1 _ _ _ hab⟩

/-- C9 counterexample: the section key `block_a_pre` is not of the
`block_[ABC]_(pre|post)` form (so the strict transform classifier rejects
it), yet the analyse script's `build_tables` routing upper-cases the
condition token and accepts it as condition A — a silent coercion the claim
rules out. -/
theorem classify_lowercase_coercion_counterexample :
    parseBlockSection "block_a_pre" = none ∧
    AnalyseV2.keptPreCond "block_a_pre" = some "A" := by
  exact ⟨by decide, by decide⟩

/-- C9 (amended): in the modular transform, a record whose section key is
neither a valid block key nor `end` contributes no long rows and leaves the
wide accumulator untouched (and classification is total, so no error is
raised); in the analyse script's `build_tables`, surviving rows always carry
a condition from the fixed alphabet, but the condition token is upper-cased
before the alphabet check, so lower-case block keys such as `block_a_pre`
are coerced to valid conditions rather than rejected. -/
theorem section_classification_c9 :
    (∀ (rec : RawSub) (om : List (String × List (String × ℕ))),
      parseBlockSection (rec.section_key.getD "") = none →
      rec.section_key.getD "" ≠ "end" →
      longRowsOf om rec = [] ∧ (∀ acc, wideStep acc rec = acc)) ∧
    (∀ sk c, AnalyseV2.keptPreCond sk = some c → c ∈ CONDITION_ORDER) ∧
    (∀ sk c, AnalyseV2.keptPostCond sk = some c → c ∈ CONDITION_ORDER) ∧
    AnalyseV2.keptPreCond "block_a_pre" = some "A" := by
  refine ⟨?_, ?_, ?_, by decide⟩
  · intro rec om hnone hne
    constructor
    · simp [longRowsOf, hnone, hne]
    · intro acc
      simp [wideStep, hnone]
  · intro sk c h
    unfold AnalyseV2.keptPreCond at h
    cases hcl : AnalyseV2.classifyPre sk with
    | none =>
      rw [hcl] at h
      exact absurd h (by simp)
    | some cr =>
      rw [hcl] at h
      dsimp only at h
      by_cases hmem : CONDITION_ORDER.contains (pyUpper cr)
      · rw [if_pos hmem] at h
        injection h with h2
        subst h2
        simpa using hmem
      · rw [if_neg hmem] at h
        exact absurd h (by simp)
  · intro sk c h
    unfold AnalyseV2.keptPostCond at h
    cases hcl : AnalyseV2.classifyPost sk with
    | none =>
      rw [hcl] at h
      exact absurd h (by simp)
    | some cr =>
      rw [hcl] at h
      dsimp only at h
      by_cases hmem : CONDITION_ORDER.contains (pyUpper cr)
      · rw [if_pos hmem] at h
        injection h with h2
        subst h2
        simpa using hmem
      · rw [if_neg hmem] at h
        exact absurd h (by simp)

/-- Witness for C9 on the session-level key `background`. -/
theorem section_classification_c9_witness :
    parseBlockSection
      ((RawSub.mk (some "p1") (some "background") [] none).section_key.getD "")
      = none ∧
    (RawSub.mk (some "p1") (some "background") [] none).section_key.getD "" ≠ "end" ∧
    longRowsOf [] (RawSub.mk (some "p1") (some "background") [] none) = [] := by
  have h1 : parseBlockSection
      ((RawSub.mk (some "p1") (some "background") [] none).section_key.getD "")
      = none := by decide
  have h2 : (RawSub.mk (some "p1") (some "background") [] none).section_key.getD ""
      ≠ "end" := by decide
  exact ⟨h1, h2, (section_classification_c9.1 _ [] h1 h2).1⟩

theorem aresolve_two (r1 r2 : RawSub) (p s : String)
    (hp1 : pyStrip (r1.participant_id.getD "") = p)
    (hs1 : pyStrip (r1.section_key.getD "") = s)
    (hp2 : pyStrip (r2.participant_id.getD "") = p)
    (hs2 : pyStrip (r2.section_key.getD "") = s)
    (hp : p ≠ "") (hs : s ≠ "") :
    AnalyseV2.resolvedMap [r1, r2] (p, s) = some (specLatestWins r1 r2) := by
  unfold AnalyseV2.resolvedMap AnalyseV2.latest_per_participant_section
  have he : ([r1, r2].enum) = [(0, r1), (1, r2)] := rfl
  rw [he]
  simp only [List.foldl_cons, List.foldl_nil]
  have h1 : AnalyseV2.lps_step [] (0, r1) = [((p, s), (r1.updated_at, 0, r1))] := by
    unfold AnalyseV2.lps_step
    simp only [hp1, hs1]
    rw [if_neg (by simp [hp, hs])]
    rfl
  rw [h1]
  unfold AnalyseV2.lps_step
  simp only [hp2, hs2]
  rw [if_neg (by simp [hp, hs])]
  cases h2 : r2.updated_at with
  | some tc =>
    cases h0 : r1.updated_at with
    | some tp =>
      rcases le_or_lt tp tc with hle | hlt
      · simp [List.lookup, assocSet, specLatestWins, h0, h2, hle, not_lt.mpr hle]
      · simp [List.lookup, assocSet, specLatestWins, h0, h2, hlt,
          not_le.mpr hlt]
    | none =>
      simp [List.lookup, assocSet, specLatestWins, h0, h2]
  | none =>
    cases h0 : r1.updated_at with
    | some tp =>
      simp [List.lookup, assocSet, specLatestWins, h0, h2]
    | none =>
      simp [List.lookup, assocSet, specLatestWins, h0, h2]

theorem ioresolve_two (r1 r2 : RawSub) (k : String × String)
    (hk1 : ioKey r1 = some k) (hk2 : ioKey r2 = some k) :
    IoIngest.resolvedMap [r1, r2] k = some (IoIngest.ioLatestPick r1 r2) := by
  unfold IoIngest.resolvedMap
  simp only [List.foldl_cons, List.foldl_nil]
  have h1 : IoIngest.select_latest_step [] r1 = [(k, r1)] := by
    unfold IoIngest.select_latest_step
    rw [hk1]
    rfl
  rw [h1]
  unfold IoIngest.select_latest_step
  rw [hk2]
  cases h2 : r2.updated_at with
  | some tn =>
    cases h0 : r1.updated_at with
    | some told =>
      rcases le_or_lt told tn with hle | hlt
      · simp [List.lookup, assocSet, IoIngest.ioLatestPick, h0, h2, hle]
      · simp [List.lookup, assocSet, IoIngest.ioLatestPick, h0, h2,
          not_le.mpr hlt]
    | none =>
      simp [List.lookup, assocSet, IoIngest.ioLatestPick, h0, h2]
  | none =>
    cases h0 : r1.updated_at with
    | some told =>
      simp [List.lookup, assocSet, IoIngest.ioLatestPick, h0, h2]
    | none =>
      simp [List.lookup, assocSet, IoIngest.ioLatestPick, h0, h2]

/-- C1 counterexample: for a timestamped record followed by a timestampless
one for the same key, `io_ingest.select_latest` keeps the timestampless
later record (its `else` branch), while the spec's total order (rule 1: a
lone parsed timestamp wins) selects the timestamped one. -/
theorem io_lone_timestamp_counterexample :
    IoIngest.resolvedMap
      [RawSub.mk (some "p1") (some "meta") [] (some 5),
       RawSub.mk (some "p1") (some "meta") [] none] ("p1", "meta") =
      some (RawSub.mk (some "p1") (some "meta") [] none) ∧
    specLatestWins (RawSub.mk (some "p1") (some "meta") [] (some 5))
      (RawSub.mk (some "p1") (some "meta") [] none) =
      RawSub.mk (some "p1") (some "meta") [] (some 5) ∧
    RawSub.mk (some "p1") (some "meta") [] none ≠
      RawSub.mk (some "p1") (some "meta") [] (some 5) := by
  refine ⟨rfl, rfl, ?_⟩
  intro h
  simp [RawSub.mk.injEq] at h

/-- C1 (amended): the analyse script's resolver realises the spec's pairwise
total order exactly (lone timestamp wins, then later timestamp, then later
ingestion index); `io_ingest.select_latest` instead keeps the later-ingested
record unless both candidates have timestamps and the earlier one's is
strictly later, so rule 1 only holds there when the timestamped candidate is
the later-ingested one.  With two distinct timestamps t1 < t2, both
resolvers return the t2 record in either input order. -/
theorem latest_wins_c1 (r1 r2 : RawSub) (p s : String) (k : String × String)
    (hp1 : pyStrip (r1.participant_id.getD "") = p)
    (hs1 : pyStrip (r1.section_key.getD "") = s)
    (hp2 : pyStrip (r2.participant_id.getD "") = p)
    (hs2 : pyStrip (r2.section_key.getD "") = s)
    (hp : p ≠ "") (hs : s ≠ "")
    (hk1 : ioKey r1 = some k) (hk2 : ioKey r2 = some k) :
    AnalyseV2.resolvedMap [r1, r2] (p, s) = some (specLatestWins r1 r2) ∧
    IoIngest.resolvedMap [r1, r2] k = some (IoIngest.ioLatestPick r1 r2) ∧
    (∀ t1 t2, r1.updated_at = some t1 → r2.updated_at = some t2 → t1 < t2 →
      AnalyseV2.resolvedMap [r1, r2] (p, s) = some r2 ∧
      AnalyseV2.resolvedMap [r2, r1] (p, s) = some r2 ∧
      IoIngest.resolvedMap [r1, r2] k = some r2 ∧
      IoIngest.resolvedMap [r2, r1] k = some r2) := by
  refine ⟨aresolve_two r1 r2 p s hp1 hs1 hp2 hs2 hp hs,
    ioresolve_two r1 r2 k hk1 hk2, ?_⟩
  intro t1 t2 h1 h2 hlt
  have hspec12 : specLatestWins r1 r2 = r2 := by
    rw [specLatestWins, h1, h2]
    simp [not_lt.mpr (le_of_lt hlt)]
  have hspec21 : specLatestWins r2 r1 = r2 := by
    rw [specLatestWins, h1, h2]
    simp [hlt]
  have hio12 : IoIngest.ioLatestPick r1 r2 = r2 := by
    rw [IoIngest.ioLatestPick, h1, h2]
    simp [le_of_lt hlt]
  have hio21' : IoIngest.ioLatestPick r2 r1 = r2 := by
    rw [IoIngest.ioLatestPick, h1, h2]
    simp [not_le.mpr hlt]
  refine ⟨?_, ?_, ?_, ?_⟩
  · rw [aresolve_two r1 r2 p s hp1 hs1 hp2 hs2 hp hs, hspec12]
  · rw [aresolve_two r2 r1 p s hp2 hs2 hp1 hs1 hp hs, hspec21]
  · rw [ioresolve_two r1 r2 k hk1 hk2, hio12]
  · rw [ioresolve_two r2 r1 k hk2 hk1, hio21']

/-- Witness for C1 on two concrete records with timestamps 1 < 2. -/
theorem latest_wins_c1_witness :
    pyStrip ((RawSub.mk (some "p1") (some "meta")
      [("x", PVal.pnum 1)] (some 1)).participant_id.getD "") = "p1" ∧
    ioKey (RawSub.mk (some "p1") (some "meta") [("x", PVal.pnum 1)] (some 1)) =
      some ("p1", "meta") ∧
    AnalyseV2.resolvedMap
      [RawSub.mk (some "p1") (some "meta") [("x", PVal.pnum 1)] (some 1),
       RawSub.mk (some "p1") (some "meta") [("x", PVal.pnum 2)] (some 2)]
      ("p1", "meta") =
      some (specLatestWins
        (RawSub.mk (some "p1") (some "meta") [("x", PVal.pnum 1)] (some 1))
        (RawSub.mk (some "p1") (some "meta") [("x", PVal.pnum 2)] (some 2))) ∧
    IoIngest.resolvedMap
      [RawSub.mk (some "p1") (some "meta") [("x", PVal.pnum 1)] (some 1),
       RawSub.mk (some "p1") (some "meta") [("x", PVal.pnum 2)] (some 2)]
      ("p1", "meta") =
      some (RawSub.mk (some "p1") (some "meta") [("x", PVal.pnum 2)] (some 2)) := by
  have h := latest_wins_c1
    (RawSub.mk (some "p1") (some "meta") [("x", PVal.pnum 1)] (some 1))
    (RawSub.mk (some "p1") (some "meta") [("x", PVal.pnum 2)] (some 2))
    "p1" "meta" ("p1", "meta") rfl rfl rfl rfl (by simp) (by simp) rfl rfl
  have h3 := h.2.2 1 2 rfl rfl (by norm_num)
  exact ⟨rfl, rfl, h.1, h3.2.2.1⟩

theorem alookup_append {β : Type} (L M : List ((String × String) × β))
    (k : String × String) :
    (L ++ M).lookup k =
      match L.lookup k with
      | some v => some v
      | none => M.lookup k := by
  induction L with
  | nil => simp [List.lookup]
  | cons a t ih =>
    rcases a with ⟨k1, v1⟩
    by_cases h : k == k1
    · simp [List.lookup, h]
    · simp [List.lookup, h, ih]

theorem assocSet_lookup_self {β : Type} (L : List ((String × String) × β))
    (k : String × String) (v e : β) (h : L.lookup k = some e) :
    (assocSet L k v).lookup k = some v := by
  induction L with
  | nil => simp [List.lookup] at h
  | cons a t ih =>
    rcases a with ⟨k1, v1⟩
    by_cases hk : k1 = k
    · subst hk
      simp only [assocSet, List.map_cons]
      simp [List.lookup]
    · have hne : (k == k1) = false := by
        simp [Ne.symm hk]
      simp only [List.lookup, hne] at h
      have := ih h
      simp only [assocSet, List.map_cons] at this ⊢
      rw [if_neg (by simp [hk])]
      simp only [List.lookup, hne]
      exact this

theorem assocSet_lookup_other {β : Type} (L : List ((String × String) × β))
    (k k2 : String × String) (v : β) (hne : k ≠ k2) :
    (assocSet L k2 v).lookup k = L.lookup k := by
  induction L with
  | nil => simp [assocSet]
  | cons a t ih =>
    rcases a with ⟨k1, v1⟩
    simp only [assocSet, List.map_cons] at ih ⊢
    by_cases hk : k1 = k2
    · subst hk
      rw [if_pos rfl]
      have h2 : (k == k1) = false := by simp [hne]
      simp only [List.lookup, h2]
      exact ih
    · rw [if_neg (by simp [hk])]
      by_cases h3 : k == k1
      · simp [List.lookup, h3]
      · simp only [List.lookup, Bool.not_eq_true] at h3 ⊢
        simp only [h3]
        exact ih

theorem assocSet_keys {β : Type} (L : List ((String × String) × β))
    (k : String × String) (v : β) :
    (assocSet L k v).map (fun e => e.1) = L.map (fun e => e.1) := by
  induction L with
  | nil => rfl
  | cons a t ih =>
    rcases a with ⟨k1, v1⟩
    simp only [assocSet, List.map_cons] at ih ⊢
    by_cases hk : k1 = k
    · subst hk
      rw [if_pos rfl]
      simp only [List.map_cons]
      rw [ih]
    · rw [if_neg (by simp [hk])]
      simp only [List.map_cons]
      rw [ih]

theorem lookup_none_iff_keys {β : Type} (L : List ((String × String) × β))
    (k : String × String) :
    L.lookup k = none ↔ k ∉ L.map (fun e => e.1) := by
  induction L with
  | nil => simp [List.lookup]
  | cons a t ih =>
    rcases a with ⟨k1, v1⟩
    by_cases h : k == k1
    · have : k = k1 := by simpa using h
      subst this
      simp [List.lookup]
    · have hne : k ≠ k1 := by simpa using h
      simp [List.lookup, h, ih, hne]

theorem io_step_lookup_same (L : List ((String × String) × RawSub))
    (r : RawSub) (k : String × String) (hk : ioKey r = some k) :
    (IoIngest.select_latest_step L r).lookup k = ioFoldPick (L.lookup k) r := by
  unfold IoIngest.select_latest_step
  rw [hk]
  cases hL : L.lookup k with
  | none =>
    simp only [hL, ioFoldPick]
    rw [alookup_append, hL]
    simp [List.lookup]
  | some e =>
    simp only [hL, ioFoldPick, IoIngest.ioLatestPick]
    cases hr : r.updated_at with
    | some tn =>
      cases he : e.updated_at with
      | some told =>
        dsimp only
        rcases le_or_lt told tn with hle | hlt
        · rw [if_pos hle, if_pos hle]
          exact assocSet_lookup_self L k r e hL
        · rw [if_neg (not_le.mpr hlt), if_neg (not_le.mpr hlt)]
          exact hL
      | none =>
        dsimp only
        exact assocSet_lookup_self L k r e hL
    | none =>
      dsimp only
      exact assocSet_lookup_self L k r e hL

theorem io_step_lookup_other (L : List ((String × String) × RawSub))
    (r : RawSub) (k : String × String) (hk : ∀ k2, ioKey r = some k2 → k ≠ k2) :
    (IoIngest.select_latest_step L r).lookup k = L.lookup k := by
  unfold IoIngest.select_latest_step
  cases hk0 : ioKey r with
  | none => rfl
  | some k2 =>
    have hne : k ≠ k2 := hk k2 hk0
    cases hL : L.lookup k2 with
    | none =>
      simp only [hL]
      rw [alookup_append]
      cases hLk : L.lookup k with
      | none =>
        have hbeq : (k == k2) = false := by
          simpa using hne
        simp [List.lookup, hbeq]
      | some v => rfl
    | some e =>
      simp only [hL]
      cases hr : r.updated_at with
      | some tn =>
        cases he : e.updated_at with
        | some told =>
          dsimp only
          rcases le_or_lt told tn with hle | hlt
          · rw [if_pos hle]
            exact assocSet_lookup_other L k k2 r hne
          · rw [if_neg (not_le.mpr hlt)]
        | none =>
          dsimp only
          exact assocSet_lookup_other L k k2 r hne
      | none =>
        dsimp only
        exact assocSet_lookup_other L k k2 r hne

theorem io_fold_lookup (rs : List RawSub)
    (L : List ((String × String) × RawSub)) (k : String × String) :
    ((rs.foldl IoIngest.select_latest_step L).lookup k) =
      (rs.filter (fun r => ioKey r == some k)).foldl ioFoldPick (L.lookup k) := by
  induction rs generalizing L with
  | nil => simp
  | cons r t ih =>
    rw [List.foldl_cons]
    by_cases hk : ioKey r = some k
    · rw [List.filter_cons_of_pos (by simp [hk]), List.foldl_cons,
        ih (IoIngest.select_latest_step L r), io_step_lookup_same L r k hk]
    · have hk2 : ∀ k2, ioKey r = some k2 → k ≠ k2 := by
        intro k2 h2 heq
        subst heq
        exact hk h2
      rw [List.filter_cons_of_neg (by simp [hk]), ih (IoIngest.select_latest_step L r),
        io_step_lookup_other L r k hk2]



theorem io_step_inv (L : List ((String × String) × RawSub)) (r : RawSub)
    (hL : ∀ e ∈ L, ioKey e.2 = some e.1) :
    ∀ e ∈ IoIngest.select_latest_step L r, ioKey e.2 = some e.1 := by
  unfold IoIngest.select_latest_step
  cases hk : ioKey r with
  | none => exact hL
  | some k =>
    dsimp only
    have hset : ∀ e ∈ assocSet L k r, ioKey e.2 = some e.1 := by
      intro e he
      rcases List.mem_map.mp he with ⟨kv, hkv, hmap⟩
      by_cases hh : kv.1 = k
      · rw [if_pos hh] at hmap
        rw [← hmap]
        exact hk
      · rw [if_neg hh] at hmap
        rw [← hmap]
        exact hL kv hkv
    cases hLk : L.lookup k with
    | none =>
      dsimp only
      intro e he
      rcases List.mem_append.mp he with h1 | h1
      · exact hL e h1
      · rcases List.mem_singleton.mp h1 with rfl
        exact hk
    | some ex =>
      dsimp only
      cases r.updated_at with
      | some tn =>
        cases ex.updated_at with
        | some told =>
          dsimp only
          by_cases hle : told ≤ tn
          · rw [if_pos hle]
            exact hset
          · rw [if_neg hle]
            exact hL
        | none => exact hset
      | none => exact hset

theorem io_step_keys_nodup (L : List ((String × String) × RawSub)) (r : RawSub)
    (hnd : ((L.map (fun e => e.1)).Nodup)) :
    (((IoIngest.select_latest_step L r).map (fun e => e.1)).Nodup) := by
  unfold IoIngest.select_latest_step
  cases hk : ioKey r with
  | none => exact hnd
  | some k =>
    dsimp only
    have hset : (((assocSet L k r).map (fun e => e.1)).Nodup) := by
      rw [assocSet_keys]
      exact hnd
    cases hLk : L.lookup k with
    | none =>
      dsimp only
      have hnot : k ∉ L.map (fun e => e.1) := (lookup_none_iff_keys L k).mp hLk
      simp only [List.map_append, List.map_cons, List.map_nil]
      rw [List.nodup_append]
      refine ⟨hnd, List.nodup_singleton k, ?_⟩
      intro a ha hb
      rcases List.mem_singleton.mp hb with rfl
      exact hnot ha
    | some ex =>
      dsimp only
      cases r.updated_at with
      | some tn =>
        cases ex.updated_at with
        | some told =>
          dsimp only
          by_cases hle : told ≤ tn
          · rw [if_pos hle]
            exact hset
          · rw [if_neg hle]
            exact hnd
        | none => exact hset
      | none => exact hset

theorem io_fold_inv (rs : List RawSub) (L : List ((String × String) × RawSub))
    (hL : ∀ e ∈ L, ioKey e.2 = some e.1) :
    ∀ e ∈ rs.foldl IoIngest.select_latest_step L, ioKey e.2 = some e.1 := by
  induction rs generalizing L with
  | nil => exact hL
  | cons r t ih =>
    rw [List.foldl_cons]
    exact ih _ (io_step_inv L r hL)

theorem io_fold_keys_nodup (rs : List RawSub)
    (L : List ((String × String) × RawSub))
    (hnd : ((L.map (fun e => e.1)).Nodup)) :
    (((rs.foldl IoIngest.select_latest_step L).map (fun e => e.1)).Nodup) := by
  induction rs generalizing L with
  | nil => exact hnd
  | cons r t ih =>
    rw [List.foldl_cons]
    exact ih _ (io_step_keys_nodup L r hnd)

theorem io_fold_fresh (entries : List ((String × String) × RawSub)) :
    ∀ L : List ((String × String) × RawSub),
    (∀ e ∈ entries, ioKey e.2 = some e.1) →
    (∀ e ∈ entries, L.lookup e.1 = none) →
    ((entries.map (fun e => e.1)).Nodup) →
    (entries.map (fun e => e.2)).foldl IoIngest.select_latest_step L =
      L ++ entries := by
  induction entries with
  | nil =>
    intro L _ _ _
    simp
  | cons a t ih =>
    intro L hinv hfresh hnd
    rcases a with ⟨k, r⟩
    rw [List.map_cons, List.foldl_cons]
    have hk : ioKey r = some k := hinv (k, r) (List.mem_cons_self _ _)
    have hf : List.lookup k L = none := hfresh (k, r) (List.mem_cons_self _ _)
    have hstep : IoIngest.select_latest_step L r = L ++ [(k, r)] := by
      unfold IoIngest.select_latest_step
      rw [hk]
      dsimp only
      rw [hf]
    rw [hstep]
    have hknot : k ∉ t.map (fun e => e.1) := by
      rw [List.map_cons] at hnd
      exact (List.nodup_cons.mp hnd).1
    have ih2 := ih (L ++ [(k, r)])
      (fun e he => hinv e (List.mem_cons_of_mem _ he))
      (fun e he => by
        have hfe : List.lookup e.1 L = none := hfresh e (List.mem_cons_of_mem _ he)
        rw [alookup_append, hfe]
        have hne : e.1 ≠ k := by
          intro hcon
          apply hknot
          rw [← hcon]
          exact List.mem_map_of_mem (fun x => x.1) he
        have hbeq : (e.1 == k) = false := by simpa using hne
        simp [List.lookup, hbeq])
      (by
        rw [List.map_cons] at hnd
        exact (List.nodup_cons.mp hnd).2)
    rw [ih2, List.append_assoc]
    rfl

theorem select_latest_idem (rs : List RawSub) :
    IoIngest.select_latest (IoIngest.select_latest rs) =
      IoIngest.select_latest rs := by
  unfold IoIngest.select_latest
  have hinv := io_fold_inv rs [] (by intro e he; simp at he)
  have hnd := io_fold_keys_nodup rs [] (by simp)
  have h := io_fold_fresh (rs.foldl IoIngest.select_latest_step []) [] hinv
    (by intro e _; rfl) hnd
  rw [h]
  rfl

theorem ioLatestPick_cases (e r : RawSub) :
    IoIngest.ioLatestPick e r = e ∨ IoIngest.ioLatestPick e r = r := by
  unfold IoIngest.ioLatestPick
  cases r.updated_at with
  | some tn =>
    cases e.updated_at with
    | some told =>
      dsimp only
      by_cases h : told ≤ tn
      · rw [if_pos h]
        exact Or.inr rfl
      · rw [if_neg h]
        exact Or.inl rfl
    | none => exact Or.inr rfl
  | none => exact Or.inr rfl

theorem ioLatestPick_ts_max (e r : RawSub) (te tr : ℚ)
    (he : e.updated_at = some te) (hr : r.updated_at = some tr) :
    te ≤ (IoIngest.ioLatestPick e r).updated_at.getD 0 ∧
    tr ≤ (IoIngest.ioLatestPick e r).updated_at.getD 0 := by
  unfold IoIngest.ioLatestPick
  rw [he, hr]
  dsimp only
  by_cases h : te ≤ tr
  · rw [if_pos h, hr]
    exact ⟨h, le_refl tr⟩
  · rw [if_neg h, he]
    exact ⟨le_refl te, le_of_lt (not_le.mp h)⟩

theorem pick_fold_ne_none (l : List RawSub) :
    ∀ acc : Option RawSub, (l.foldl ioFoldPick acc = none) →
      l = [] ∧ acc = none := by
  induction l with
  | nil =>
    intro acc h
    exact ⟨rfl, h⟩
  | cons r t ih =>
    intro acc h
    rw [List.foldl_cons] at h
    rcases ih _ h with ⟨_, h2⟩
    unfold ioFoldPick at h2
    cases acc <;> simp at h2

theorem pick_fold_mem (l : List RawSub) :
    ∀ (acc : Option RawSub) (w : RawSub), l.foldl ioFoldPick acc = some w →
      acc = some w ∨ w ∈ l := by
  induction l with
  | nil =>
    intro acc w h
    exact Or.inl h
  | cons r t ih =>
    intro acc w h
    rw [List.foldl_cons] at h
    rcases ih _ w h with h1 | h1
    · cases acc with
      | none =>
        unfold ioFoldPick at h1
        injection h1 with h2
        exact Or.inr (by rw [← h2]; exact List.mem_cons_self _ _)
      | some e =>
        unfold ioFoldPick at h1
        injection h1 with h2
        rcases ioLatestPick_cases e r with hc | hc
        · rw [hc] at h2
          exact Or.inl (by rw [h2])
        · rw [hc] at h2
          exact Or.inr (by rw [← h2]; exact List.mem_cons_self _ _)
    · exact Or.inr (List.mem_cons_of_mem _ h1)

theorem pick_fold_ts_max (l : List RawSub) :
    ∀ (acc : Option RawSub) (w : RawSub),
    (∀ r ∈ l, r.updated_at.isSome) →
    (∀ e, acc = some e → e.updated_at.isSome) →
    l.foldl ioFoldPick acc = some w →
    w.updated_at.isSome ∧
    (∀ r ∈ l, r.updated_at.getD 0 ≤ w.updated_at.getD 0) ∧
    (∀ e, acc = some e → e.updated_at.getD 0 ≤ w.updated_at.getD 0) := by
  induction l with
  | nil =>
    intro acc w _ hacc hfold
    have hw : acc = some w := hfold
    refine ⟨hacc w hw, by intro r hr; simp at hr, ?_⟩
    intro e he
    rw [he] at hw
    injection hw with h2
    subst h2
    exact le_refl _
  | cons r t ih =>
    intro acc w hl hacc hfold
    rw [List.foldl_cons] at hfold
    have hrts : r.updated_at.isSome := hl r (List.mem_cons_self _ _)
    have hacc2 : ∀ e, ioFoldPick acc r = some e → e.updated_at.isSome := by
      intro e he
      cases acc with
      | none =>
        unfold ioFoldPick at he
        injection he with he2
        rw [← he2]
        exact hrts
      | some e0 =>
        unfold ioFoldPick at he
        injection he with he2
        rcases ioLatestPick_cases e0 r with hc | hc
        · rw [hc] at he2
          rw [← he2]
          exact hacc e0 rfl
        · rw [hc] at he2
          rw [← he2]
          exact hrts
    obtain ⟨hws, hdomt, hdomacc⟩ := ih (ioFoldPick acc r) w
      (fun x hx => hl x (List.mem_cons_of_mem _ hx)) hacc2 hfold
    have hpickdom : ∀ e0, acc = some e0 →
        e0.updated_at.getD 0 ≤ (IoIngest.ioLatestPick e0 r).updated_at.getD 0 ∧
        r.updated_at.getD 0 ≤ (IoIngest.ioLatestPick e0 r).updated_at.getD 0 := by
      intro e0 he0
      obtain ⟨te, hte⟩ := Option.isSome_iff_exists.mp (hacc e0 he0)
      obtain ⟨tr, htr⟩ := Option.isSome_iff_exists.mp hrts
      have := ioLatestPick_ts_max e0 r te tr hte htr
      rw [hte, htr]
      exact ⟨this.1, this.2⟩
    refine ⟨hws, ?_, ?_⟩
    · intro x hx
      rcases List.mem_cons.mp hx with heq | hx2
      · subst heq
        cases acc with
        | none =>
          exact hdomacc x (by rfl)
        | some e0 =>
          have h1 := (hpickdom e0 rfl).2
          have h2 := hdomacc (IoIngest.ioLatestPick e0 x) (by rfl)
          exact le_trans h1 h2
      · exact hdomt x hx2
    · intro e0 he0
      subst he0
      have h1 := (hpickdom e0 rfl).1
      have h2 := hdomacc (IoIngest.ioLatestPick e0 r) (by rfl)
      exact le_trans h1 h2

theorem select_latest_order_indep (rs1 rs2 : List RawSub)
    (hperm : rs1.Perm rs2)
    (hts : ∀ r ∈ rs1, (ioKey r).isSome → r.updated_at.isSome)
    (hdist : ∀ r1 ∈ rs1, ∀ r2 ∈ rs1, ioKey r1 = ioKey r2 →
      r1.updated_at = r2.updated_at → r1 = r2)
    (k : String × String) :
    IoIngest.resolvedMap rs1 k = IoIngest.resolvedMap rs2 k := by
  unfold IoIngest.resolvedMap
  rw [io_fold_lookup rs1 [] k, io_fold_lookup rs2 [] k]
  have hl0 : (([] : List ((String × String) × RawSub)).lookup k) = none := rfl
  rw [hl0]
  have hpf : (rs1.filter (fun r => ioKey r == some k)).Perm
      (rs2.filter (fun r => ioKey r == some k)) := hperm.filter _
  have hmem1 : ∀ r ∈ rs1.filter (fun r => ioKey r == some k),
      ioKey r = some k ∧ r ∈ rs1 := by
    intro r hr
    have h := List.mem_filter.mp hr
    exact ⟨by simpa using h.2, h.1⟩
  have hmem2 : ∀ r ∈ rs2.filter (fun r => ioKey r == some k),
      ioKey r = some k ∧ r ∈ rs1 := by
    intro r hr
    have h := List.mem_filter.mp hr
    exact ⟨by simpa using h.2, hperm.mem_iff.mpr h.1⟩
  have hts1 : ∀ r ∈ rs1.filter (fun r => ioKey r == some k),
      r.updated_at.isSome := fun r hr =>
    hts r (hmem1 r hr).2 (by rw [(hmem1 r hr).1]; rfl)
  have hts2 : ∀ r ∈ rs2.filter (fun r => ioKey r == some k),
      r.updated_at.isSome := fun r hr =>
    hts r (hmem2 r hr).2 (by rw [(hmem2 r hr).1]; rfl)
  cases hw1 : (rs1.filter (fun r => ioKey r == some k)).foldl ioFoldPick none with
  | none =>
    rcases pick_fold_ne_none _ none hw1 with ⟨hnil, _⟩
    rw [hnil] at hpf
    have h2 : rs2.filter (fun r => ioKey r == some k) = [] :=
      List.Perm.eq_nil hpf.symm
    rw [h2]
    rfl
  | some w1 =>
    cases hw2 : (rs2.filter (fun r => ioKey r == some k)).foldl ioFoldPick none with
    | none =>
      rcases pick_fold_ne_none _ none hw2 with ⟨hnil, _⟩
      rw [hnil] at hpf
      have h2 : rs1.filter (fun r => ioKey r == some k) = [] :=
        List.Perm.eq_nil hpf
      rw [h2] at hw1
      simp at hw1
    | some w2 =>
      have hm1 : w1 ∈ rs1.filter (fun r => ioKey r == some k) := by
        rcases pick_fold_mem _ none w1 hw1 with h | h
        · exact absurd h (by simp)
        · exact h
      have hm2 : w2 ∈ rs2.filter (fun r => ioKey r == some k) := by
        rcases pick_fold_mem _ none w2 hw2 with h | h
        · exact absurd h (by simp)
        · exact h
      have hd1 := pick_fold_ts_max _ none w1 hts1
        (by intro e he; exact absurd he (by simp)) hw1
      have hd2 := pick_fold_ts_max _ none w2 hts2
        (by intro e he; exact absurd he (by simp)) hw2
      have hw1in2 : w1 ∈ rs2.filter (fun r => ioKey r == some k) :=
        hpf.mem_iff.mp hm1
      have hw2in1 : w2 ∈ rs1.filter (fun r => ioKey r == some k) :=
        hpf.mem_iff.mpr hm2
      have h12 : w1.updated_at.getD 0 ≤ w2.updated_at.getD 0 :=
        hd2.2.1 w1 hw1in2
      have h21 : w2.updated_at.getD 0 ≤ w1.updated_at.getD 0 :=
        hd1.2.1 w2 hw2in1
      have heqd : w1.updated_at.getD 0 = w2.updated_at.getD 0 :=
        le_antisymm h12 h21
      obtain ⟨t1, ht1⟩ := Option.isSome_iff_exists.mp hd1.1
      obtain ⟨t2, ht2⟩ := Option.isSome_iff_exists.mp hd2.1
      have ht12 : t1 = t2 := by
        rw [ht1, ht2] at heqd
        simpa using heqd
      have htseq : w1.updated_at = w2.updated_at := by
        rw [ht1, ht2, ht12]
      have hkeq : ioKey w1 = ioKey w2 := by
        rw [(hmem1 w1 hm1).1, (hmem2 w2 hm2).1]
      have hw12 : w1 = w2 :=
        hdist w1 (hmem1 w1 hm1).2 w2 (hmem2 w2 hm2).2 hkeq htseq
      rw [hw12]

/-- C2 counterexample: the canonical record set of `select_latest` is not
independent of the input ordering: for a timestamped record `a` and a
timestampless record `b` with the same key, the resolver keeps `b` when the
order is `[a, b]` but keeps `a` when the order is `[b, a]`. -/
theorem select_latest_order_counterexample :
    IoIngest.resolvedMap
      [RawSub.mk (some "p1") (some "meta") [] (some 5),
       RawSub.mk (some "p1") (some "meta") [] none] ("p1", "meta") =
      some (RawSub.mk (some "p1") (some "meta") [] none) ∧
    IoIngest.resolvedMap
      [RawSub.mk (some "p1") (some "meta") [] none,
       RawSub.mk (some "p1") (some "meta") [] (some 5)] ("p1", "meta") =
      some (RawSub.mk (some "p1") (some "meta") [] (some 5)) ∧
    ([RawSub.mk (some "p1") (some "meta") [] (some 5),
      RawSub.mk (some "p1") (some "meta") [] none]).Perm
      [RawSub.mk (some "p1") (some "meta") [] none,
       RawSub.mk (some "p1") (some "meta") [] (some 5)] ∧
    RawSub.mk (some "p1") (some "meta") [] none ≠
      RawSub.mk (some "p1") (some "meta") [] (some 5) := by
  refine ⟨rfl, rfl, ?_, ?_⟩
  · exact List.Perm.swap _ _ _
  · intro h
    simp [RawSub.mk.injEq] at h

/-- C2 (amended): `select_latest` is idempotent (re-running it on its own
output returns that output, hence running it twice equals running it once),
and its canonical keyed record map is independent of the input ordering
provided every keyed submission carries a parsed timestamp and no two
same-key submissions carry equal timestamps; with absent or tied timestamps
the later-ingested record wins, so reordering can change the survivor. -/
theorem resolver_idem_order_c2 :
    (∀ rs : List RawSub,
      IoIngest.select_latest (IoIngest.select_latest rs) =
        IoIngest.select_latest rs) ∧
    (∀ rs1 rs2 : List RawSub, rs1.Perm rs2 →
      (∀ r ∈ rs1, (ioKey r).isSome → r.updated_at.isSome) →
      (∀ r1 ∈ rs1, ∀ r2 ∈ rs1, ioKey r1 = ioKey r2 →
        r1.updated_at = r2.updated_at → r1 = r2) →
      ∀ k, IoIngest.resolvedMap rs1 k = IoIngest.resolvedMap rs2 k) := by
  exact ⟨select_latest_idem,
    fun rs1 rs2 hperm hts hdist k =>
      select_latest_order_indep rs1 rs2 hperm hts hdist k⟩

/-- Witness for C2 on two same-key records with distinct timestamps 1, 2 in
both orders. -/
theorem resolver_idem_order_c2_witness :
    ([RawSub.mk (some "p1") (some "meta") [] (some 1),
      RawSub.mk (some "p1") (some "meta") [] (some 2)]).Perm
      [RawSub.mk (some "p1") (some "meta") [] (some 2),
       RawSub.mk (some "p1") (some "meta") [] (some 1)] ∧
    IoIngest.resolvedMap
      [RawSub.mk (some "p1") (some "meta") [] (some 1),
       RawSub.mk (some "p1") (some "meta") [] (some 2)] ("p1", "meta") =
    IoIngest.resolvedMap
      [RawSub.mk (some "p1") (some "meta") [] (some 2),
       RawSub.mk (some "p1") (some "meta") [] (some 1)] ("p1", "meta") ∧
    IoIngest.select_latest (IoIngest.select_latest
      [RawSub.mk (some "p1") (some "meta") [] (some 1),
       RawSub.mk (some "p1") (some "meta") [] (some 2)]) =
    IoIngest.select_latest
      [RawSub.mk (some "p1") (some "meta") [] (some 1),
       RawSub.mk (some "p1") (some "meta") [] (some 2)] := by
  have hperm : ([RawSub.mk (some "p1") (some "meta") [] (some 1),
      RawSub.mk (some "p1") (some "meta") [] (some 2)]).Perm
      [RawSub.mk (some "p1") (some "meta") [] (some 2),
       RawSub.mk (some "p1") (some "meta") [] (some 1)] :=
    List.Perm.swap _ _ _
  have hts : ∀ r ∈ [RawSub.mk (some "p1") (some "meta") [] (some 1),
      RawSub.mk (some "p1") (some "meta") [] (some 2)],
      (ioKey r).isSome → r.updated_at.isSome := by
    intro r hr _
    rcases List.mem_cons.mp hr with heq | hr2
    · subst heq
      rfl
    · rcases List.mem_cons.mp hr2 with heq | hr3
      · subst heq
        rfl
      · simp at hr3
  have hdist : ∀ r1 ∈ [RawSub.mk (some "p1") (some "meta") [] (some 1),
      RawSub.mk (some "p1") (some "meta") [] (some 2)],
      ∀ r2 ∈ [RawSub.mk (some "p1") (some "meta") [] (some 1),
        RawSub.mk (some "p1") (some "meta") [] (some 2)],
      ioKey r1 = ioKey r2 → r1.updated_at = r2.updated_at → r1 = r2 := by
    intro r1 h1 r2 h2 _ ht
    rcases List.mem_cons.mp h1 with he1 | h1b
    · rcases List.mem_cons.mp h2 with he2 | h2b
      · rw [he1, he2]
      · rcases List.mem_cons.mp h2b with he2 | h2c
        · subst he1
          subst he2
          injection ht with ht2
          norm_num at ht2
        · simp at h2c
    · rcases List.mem_cons.mp h1b with he1 | h1c
      · rcases List.mem_cons.mp h2 with he2 | h2b
        · subst he1
          subst he2
          injection ht with ht2
          norm_num at ht2
        · rcases List.mem_cons.mp h2b with he2 | h2c
          · rw [he1, he2]
          · simp at h2c
      · simp at h1c
  exact ⟨hperm, resolver_idem_order_c2.2 _ _ hperm hts hdist ("p1", "meta"),
    resolver_idem_order_c2.1 _⟩

theorem pyDictSet_ne_nil (d : List (String × PVal)) (k : String) (v : PVal) :
    pyDictSet d k v ≠ [] := by
  unfold pyDictSet
  by_cases h : (d.lookup k).isSome
  · rw [if_pos h]
    intro hcon
    rcases d with _ | ⟨a, t⟩
    · simp [List.lookup] at h
    · simp at hcon
  · rw [if_neg h]
    simp

theorem pyDictSetdefault_ne_nil (d : List (String × PVal)) (k : String)
    (v : PVal) : pyDictSetdefault d k v ≠ [] := by
  unfold pyDictSetdefault
  by_cases h : (d.lookup k).isSome
  · rw [if_pos h]
    intro hcon
    rw [hcon] at h
    simp [List.lookup] at h
  · rw [if_neg h]
    simp

theorem setfold_ne_nil (l : List (String × PVal)) :
    ∀ b : List (String × PVal), l ≠ [] →
    l.foldl (fun d kv => pyDictSet d kv.1 kv.2) b ≠ [] := by
  induction l with
  | nil => intro b h; exact absurd rfl h
  | cons a t ih =>
    intro b _
    rw [List.foldl_cons]
    cases ht : t with
    | nil =>
      rw [List.foldl_nil]
      exact pyDictSet_ne_nil b a.1 a.2
    | cons x xs =>
      rw [← ht]
      exact ih _ (by rw [ht]; simp)

theorem qual_fold_ne_nil (l : List (String × PVal)) :
    ∀ o : List (String × PVal),
    ((∃ kv ∈ l, qualifiesKey kv.1 = true) ∨ o ≠ []) →
    l.foldl (fun o kv =>
      if qualifiesKey kv.1 then pyDictSetdefault o (pyStrip kv.1) kv.2 else o)
      o ≠ [] := by
  induction l with
  | nil =>
    intro o h
    rcases h with ⟨kv, hkv, _⟩ | h
    · simp at hkv
    · simpa using h
  | cons a t ih =>
    intro o h
    rw [List.foldl_cons]
    by_cases hq : qualifiesKey a.1
    · rw [if_pos hq]
      exact ih _ (Or.inr (pyDictSetdefault_ne_nil o (pyStrip a.1) a.2))
    · rw [if_neg hq]
      apply ih
      rcases h with ⟨kv, hkv, hkvq⟩ | h
      · rcases List.mem_cons.mp hkv with heq | hkv2
        · rw [heq] at hkvq
          exact absurd hkvq hq
        · exact Or.inl ⟨kv, hkv2, hkvq⟩
      · exact Or.inr h

theorem extract_answers_ne_nil (d : List (String × PVal)) (kv : String × PVal)
    (hkv : kv ∈ d) (hq : qualifiesKey kv.1 = true) :
    extract_answers_block d ≠ [] := by
  unfold extract_answers_block
  exact qual_fold_ne_nil d _ (Or.inl ⟨kv, hkv, hq⟩)

theorem extract_payload_ne_nil (d : List (String × PVal)) (kv : String × PVal)
    (hkv : kv ∈ d) (hq : qualifiesKey kv.1 = true) :
    extract_payload d ≠ [] := by
  unfold extract_payload
  exact setfold_ne_nil _ _ (extract_answers_ne_nil d kv hkv hq)

/-- C6 counterexample: a record carrying a recognizable participant-id key
(and an item-code payload) but no section key is dropped by
`io_ingest.load_records`, which requires both a truthy id and a truthy
section key; the claim says such a record is kept. -/
theorem io_loader_pid_only_counterexample :
    IoIngest.keepsRecord [("participant_id", PVal.pstr "P1"),
      ("payload", PVal.pdict [("A_1", PVal.pnum 5)])] = false ∧
    (find_first [("participant_id", PVal.pstr "P1"),
      ("payload", PVal.pdict [("A_1", PVal.pnum 5)])] PID_KEYS).isSome = true ∧
    IoIngest.load_records (PVal.plist [PVal.pdict [("participant_id", PVal.pstr "P1"),
      ("payload", PVal.pdict [("A_1", PVal.pnum 5)])]]) = Except.ok [] := by
  exact ⟨rfl, rfl, rfl⟩

/-- C6 (amended): the analyse script's loader satisfies the claim: a
candidate mapping with a participant id, or a section key, or any qualifying
(item-code-shaped or known extra) key is kept, and a record is dropped only
when it lacks both a participant id and a section key (and any payload); the
`io_ingest` loader instead keeps a record only when both a truthy id and a
truthy section key are present, and a top-level list input is never fatal. -/
theorem record_loader_c6 :
    (∀ d : List (String × PVal), (AnalyseV2.pidVal d).isSome →
      AnalyseV2.keepsRecord d = true) ∧
    (∀ d : List (String × PVal), (AnalyseV2.skVal d).isSome →
      AnalyseV2.keepsRecord d = true) ∧
    (∀ (d : List (String × PVal)) (kv : String × PVal), kv ∈ d →
      qualifiesKey kv.1 = true → AnalyseV2.keepsRecord d = true) ∧
    (∀ d : List (String × PVal), AnalyseV2.keepsRecord d = false →
      (AnalyseV2.pidVal d).isNone ∧ (AnalyseV2.skVal d).isNone) ∧
    (∀ d : List (String × PVal),
      pyTruthyOpt (find_first d SECTION_KEYS) = false →
      IoIngest.keepsRecord d = false) ∧
    (∀ l : List PVal, ∃ rs, IoIngest.load_records (PVal.plist l) = Except.ok rs) := by
  refine ⟨?_, ?_, ?_, ?_, ?_, ?_⟩
  · intro d h
    unfold AnalyseV2.keepsRecord
    rcases Option.isSome_iff_exists.mp h with ⟨v, hv⟩
    simp [hv]
  · intro d h
    unfold AnalyseV2.keepsRecord
    rcases Option.isSome_iff_exists.mp h with ⟨v, hv⟩
    simp [hv]
  · intro d kv hkv hq
    unfold AnalyseV2.keepsRecord
    have hne := extract_payload_ne_nil d kv hkv hq
    rcases List.exists_cons_of_ne_nil hne with ⟨x, xs, hx⟩
    simp [hx]
  · intro d h
    unfold AnalyseV2.keepsRecord at h
    simp only [Bool.not_eq_false', Bool.and_eq_true] at h
    exact ⟨h.1.1, h.1.2⟩
  · intro d h
    unfold IoIngest.keepsRecord
    rw [h]
    simp
  · intro l
    exact ⟨_, rfl⟩

/-- Witness for C6 on a one-key record holding only a participant id. -/
theorem record_loader_c6_witness :
    (AnalyseV2.pidVal [("pid", PVal.pstr "P7")]).isSome = true ∧
    AnalyseV2.keepsRecord [("pid", PVal.pstr "P7")] = true ∧
    (("A_1", PVal.pnum 5) ∈ [("A_1", PVal.pnum 5)] ∧
      qualifiesKey "A_1" = true ∧
      AnalyseV2.keepsRecord [("A_1", PVal.pnum 5)] = true) := by
  have h1 : (AnalyseV2.pidVal [("pid", PVal.pstr "P7")]).isSome = true := rfl
  have hm : ("A_1", PVal.pnum 5) ∈ [(("A_1" : String), PVal.pnum 5)] :=
    List.mem_singleton.mpr rfl
  have hq : qualifiesKey "A_1" = true := rfl
  exact ⟨h1, record_loader_c6.1 _ h1, hm, hq,
    record_loader_c6.2.2.1 _ _ hm hq⟩

/-- Association lookup distributes over append; the left list wins. -/
theorem glookup_append {κ β : Type} [BEq κ] [LawfulBEq κ]
    (l1 l2 : List (κ × β)) (k : κ) :
    (l1 ++ l2).lookup k =
      match l1.lookup k with
      | some v => some v
      | none => l2.lookup k := by
  induction l1 with
  | nil => simp [List.lookup]
  | cons a t ih =>
    rcases a with ⟨k1, v1⟩
    by_cases h : k1 = k
    · simp [List.lookup, h]
    · simp [List.lookup, beq_eq_false_iff_ne.mpr (Ne.symm h), ih]

/-- A lookup succeeds exactly on the stored keys. -/
theorem glookup_isSome_iff {κ β : Type} [BEq κ] [LawfulBEq κ]
    (l : List (κ × β)) (k : κ) :
    (l.lookup k).isSome = true ↔ k ∈ l.map (fun kv => kv.1) := by
  induction l with
  | nil => simp [List.lookup]
  | cons a t ih =>
    rcases a with ⟨k1, v1⟩
    by_cases h : k1 = k
    · simp [List.lookup, h]
    · simp [List.lookup, beq_eq_false_iff_ne.mpr (Ne.symm h), ih, Ne.symm h]

/-- In a list with duplicate-free keys, a key determines its value. -/
theorem mem_assoc_unique {κ β : Type} (l : List (κ × β)) (k : κ) (a b : β)
    (hnd : (l.map (fun kv => kv.1)).Nodup)
    (ha : (k, a) ∈ l) (hb : (k, b) ∈ l) : a = b := by
  induction l with
  | nil => cases ha
  | cons x t ih =>
    rw [List.map_cons, List.nodup_cons] at hnd
    rcases List.mem_cons.mp ha with hea | ha2
    · rcases List.mem_cons.mp hb with heb | hb2
      · rw [← hea] at heb
        exact (congrArg Prod.snd heb).symm
      · exfalso
        apply hnd.1
        rw [← hea]
        simpa using List.mem_map_of_mem (fun kv => kv.1) hb2
    · rcases List.mem_cons.mp hb with heb | hb2
      · exfalso
        apply hnd.1
        rw [← heb]
        simpa using List.mem_map_of_mem (fun kv => kv.1) ha2
      · exact ih hnd.2 ha2 hb2

/-- The six accepted section strings all have phase `pre` or `post`. -/
theorem parse_phase (s : String) (cp : String × String)
    (h : parseBlockSection s = some cp) : cp.2 = "pre" ∨ cp.2 = "post" := by
  unfold parseBlockSection at h
  split_ifs at h
  all_goals first
    | exact Option.noConfusion h
    | (simp only [Option.some.injEq] at h
       subst h
       simp)

/-- An accepted section string is rebuilt from its condition and phase. -/
theorem parse_section_eq (s : String) (cp : String × String)
    (h : parseBlockSection s = some cp) :
    s = "block_" ++ cp.1 ++ "_" ++ cp.2 := by
  unfold parseBlockSection at h
  split_ifs at h
  all_goals first
    | exact Option.noConfusion h
    | (simp only [Option.some.injEq] at h
       subst_vars
       decide)

/-- A matching record carries the key's participant id and the matched
block-section key. -/
theorem blockMatches_section (ph : String) (key : Option String × String)
    (r : RawSub) (h : blockMatches ph key r = true) :
    r.participant_id = key.1 ∧
      r.section_key = some ("block_" ++ key.2 ++ "_" ++ ph) := by
  unfold blockMatches at h
  cases hp : parseBlockSection (r.section_key.getD "") with
  | none =>
    rw [hp] at h
    cases h
  | some cp =>
    rw [hp] at h
    dsimp only at h
    simp only [Bool.and_eq_true, decide_eq_true_eq, beq_iff_eq] at h
    obtain ⟨⟨hph, hpid⟩, hcond⟩ := h
    have hsec : r.section_key.getD "" = "block_" ++ cp.1 ++ "_" ++ cp.2 :=
      parse_section_eq _ _ hp
    obtain ⟨s, hs⟩ : ∃ s, r.section_key = some s := by
      cases hsk : r.section_key with
      | none =>
        rw [hsk] at hp
        simp only [Option.getD_none] at hp
        have hnone : parseBlockSection "" = none := by decide
        rw [hnone] at hp
        exact Option.noConfusion hp
      | some s => exact ⟨s, rfl⟩
    rw [hs] at hsec
    simp only [Option.getD_some] at hsec
    refine ⟨hpid, ?_⟩
    rw [hs, hsec, hcond, hph]

/-- A record whose section parses with the wanted phase matches its own key. -/
theorem blockMatches_self (ph : String) (r : RawSub) (cp : String × String)
    (hp : parseBlockSection (r.section_key.getD "") = some cp)
    (hph : cp.2 = ph) :
    blockMatches ph (r.participant_id, cp.1) r = true := by
  unfold blockMatches
  rw [hp]
  simp [hph]

/-- A match of a record whose section parses pins down the phase and key. -/
theorem blockMatches_key (ph : String) (key : Option String × String)
    (r : RawSub) (cp : String × String)
    (hp : parseBlockSection (r.section_key.getD "") = some cp)
    (h : blockMatches ph key r = true) :
    cp.2 = ph ∧ key = (r.participant_id, cp.1) := by
  unfold blockMatches at h
  rw [hp] at h
  dsimp only at h
  simp only [Bool.and_eq_true, decide_eq_true_eq, beq_iff_eq] at h
  refine ⟨h.1.1, ?_⟩
  rw [h.1.2, h.2]

/-- `find?` on a list whose filtrate is a singleton returns that element. -/
theorem find?_of_filter_singleton {α : Type} (l : List α) (p : α → Bool)
    (r : α) (h : l.filter p = [r]) : l.find? p = some r := by
  induction l with
  | nil => simp at h
  | cons a t ih =>
    cases hpa : p a
    · have h2 := h
      rw [List.filter_cons_of_neg (by simp [hpa])] at h2
      simp only [List.find?_cons, hpa]
      exact ih h2
    · have h2 := h
      rw [List.filter_cons_of_pos (by simp [hpa])] at h2
      injection h2 with h1 _
      subst h1
      simp [List.find?_cons, hpa]

/-- A duplicate-free list whose members all equal one value has length at
most one. -/
theorem nodup_all_eq_length_le_one {α : Type} (l : List α) (c : α)
    (hnd : l.Nodup) (hall : ∀ x ∈ l, x = c) : l.length ≤ 1 := by
  cases l with
  | nil => simp
  | cons a t =>
    cases t with
    | nil => simp
    | cons b u =>
      exfalso
      have ha : a = c := hall a (by simp)
      have hb : b = c := hall b (by simp)
      rw [List.nodup_cons] at hnd
      apply hnd.1
      rw [ha, ← hb]
      exact List.mem_cons_self b u

/-- Under duplicate-free `(participant, section)` keys, at most one record
matches a given phase and wide key. -/
theorem blockFilter_le_one (records : List RawSub)
    (hnd : (records.map (fun r => (r.participant_id, r.section_key))).Nodup)
    (ph : String) (key : Option String × String) :
    (records.filter (fun r => blockMatches ph key r)).length ≤ 1 := by
  have hsub : (records.filter (fun r => blockMatches ph key r)).Sublist records :=
    List.filter_sublist records
  have hmap : ((records.filter (fun r => blockMatches ph key r)).map
      (fun r => (r.participant_id, r.section_key))).Nodup :=
    hnd.sublist (hsub.map _)
  have hall : ∀ x ∈ (records.filter (fun r => blockMatches ph key r)).map
      (fun r => (r.participant_id, r.section_key)),
      x = (key.1, some ("block_" ++ key.2 ++ "_" ++ ph)) := by
    intro x hx
    rcases List.mem_map.mp hx with ⟨r, hr, hxx⟩
    have hm := (List.mem_filter.mp hr).2
    obtain ⟨h1, h2⟩ := blockMatches_section ph key r hm
    rw [← hxx, h1, h2]
  have hlen := nodup_all_eq_length_le_one _ _ hmap hall
  simpa using hlen

/-- Replacing the entry of one key leaves lookups of other keys unchanged. -/
theorem mapReplace_lookup_other
    (d : List ((Option String × String) × Half))
    (key key' : Option String × String) (h : Half) (hne : key' ≠ key) :
    (d.map (fun kv => if kv.1 = key then (key, h) else kv)).lookup key' =
      d.lookup key' := by
  induction d with
  | nil => rfl
  | cons a t ih =>
    rw [List.map_cons]
    by_cases hk : a.1 = key
    · have h1 : (key' == key) = false := beq_eq_false_iff_ne.mpr hne
      have h2 : (key' == a.1) = false := by rw [hk]; exact h1
      rw [if_pos hk]
      simp [List.lookup, h1, h2, ih]
    · rw [if_neg hk]
      cases hbeq : (key' == a.1)
      · simp [List.lookup, hbeq, ih]
      · simp [List.lookup, hbeq]

/-- After an upsert the stored half of the upserted key is the new half. -/
theorem upsertHalf_lookup_self
    (d : List ((Option String × String) × Half))
    (key : Option String × String) (h : Half) :
    (upsertHalf d key h).lookup key = some h := by
  unfold upsertHalf
  by_cases hs : (d.lookup key).isSome = true
  · rw [if_pos hs]
    revert hs
    induction d with
    | nil =>
      intro hs
      simp [List.lookup] at hs
    | cons a t ih =>
      intro hs
      rw [List.map_cons]
      by_cases hk : a.1 = key
      · rw [if_pos hk]
        simp [List.lookup]
      · rw [if_neg hk]
        have hb : (key == a.1) = false :=
          beq_eq_false_iff_ne.mpr (fun he => hk he.symm)
        have hs2 : (t.lookup key).isSome = true := by
          simpa [List.lookup, hb] using hs
        simp [List.lookup, hb, ih hs2]
  · rw [if_neg hs]
    have hn : d.lookup key = none := by
      cases hd : d.lookup key
      · rfl
      · rw [hd] at hs
        simp at hs
    rw [glookup_append, hn]
    simp [List.lookup]

/-- An upsert leaves lookups of other keys unchanged. -/
theorem upsertHalf_lookup_other
    (d : List ((Option String × String) × Half))
    (key key' : Option String × String) (h : Half) (hne : key' ≠ key) :
    (upsertHalf d key h).lookup key' = d.lookup key' := by
  unfold upsertHalf
  by_cases hs : (d.lookup key).isSome = true
  · rw [if_pos hs]
    exact mapReplace_lookup_other d key key' h hne
  · rw [if_neg hs]
    rw [glookup_append]
    cases hd : d.lookup key'
    · simp [List.lookup, beq_eq_false_iff_ne.mpr hne]
    · rfl

/-- One wide step writes the pre half exactly for the matching key. -/
theorem wstep_pre_lookup
    (acc : List ((Option String × String) × Half) ×
      List ((Option String × String) × Half)) (r : RawSub)
    (key : Option String × String) :
    ((wideStep acc r).1).lookup key =
      if blockMatches "pre" key r = true then some (preHalfOf r)
      else acc.1.lookup key := by
  cases hp : parseBlockSection (r.section_key.getD "") with
  | none =>
    have hb : blockMatches "pre" key r = false := by
      unfold blockMatches
      rw [hp]
    simp only [wideStep]
    rw [hp]
    simp [hb]
  | some cp =>
    by_cases hph : cp.2 = "pre"
    · by_cases hk : (r.participant_id, cp.1) = key
      · have hbm : blockMatches "pre" key r = true := by
          rw [← hk]
          exact blockMatches_self "pre" r cp hp hph
        simp only [wideStep]
        rw [hp]
        dsimp only
        rw [if_pos hph]
        dsimp only
        rw [hk, upsertHalf_lookup_self, if_pos hbm]
      · have hbm : blockMatches "pre" key r = false := by
          cases hb2 : blockMatches "pre" key r
          · rfl
          · exact absurd (blockMatches_key "pre" key r cp hp hb2).2.symm hk
        simp only [wideStep]
        rw [hp]
        dsimp only
        rw [if_pos hph]
        dsimp only
        rw [upsertHalf_lookup_other _ _ _ _ (fun he => hk he.symm),
          if_neg (by simp [hbm])]
    · have hbm : blockMatches "pre" key r = false := by
        cases hb2 : blockMatches "pre" key r
        · rfl
        · exact absurd (blockMatches_key "pre" key r cp hp hb2).1 hph
      simp only [wideStep]
      rw [hp]
      dsimp only
      rw [if_neg hph]
      simp [hbm]

/-- One wide step writes the post half exactly for the matching key. -/
theorem wstep_post_lookup
    (acc : List ((Option String × String) × Half) ×
      List ((Option String × String) × Half)) (r : RawSub)
    (key : Option String × String) :
    ((wideStep acc r).2).lookup key =
      if blockMatches "post" key r = true then some (postHalfOf r)
      else acc.2.lookup key := by
  cases hp : parseBlockSection (r.section_key.getD "") with
  | none =>
    have hb : blockMatches "post" key r = false := by
      unfold blockMatches
      rw [hp]
    simp only [wideStep]
    rw [hp]
    simp [hb]
  | some cp =>
    by_cases hph : cp.2 = "pre"
    · have hbm : blockMatches "post" key r = false := by
        cases hb2 : blockMatches "post" key r
        · rfl
        · have hcp := (blockMatches_key "post" key r cp hp hb2).1
          rw [hph] at hcp
          exact absurd hcp (by decide)
      simp only [wideStep]
      rw [hp]
      dsimp only
      rw [if_pos hph]
      simp [hbm]
    · have hpost : cp.2 = "post" := (parse_phase _ _ hp).resolve_left hph
      by_cases hk : (r.participant_id, cp.1) = key
      · have hbm : blockMatches "post" key r = true := by
          rw [← hk]
          exact blockMatches_self "post" r cp hp hpost
        simp only [wideStep]
        rw [hp]
        dsimp only
        rw [if_neg hph]
        dsimp only
        rw [hk, upsertHalf_lookup_self, if_pos hbm]
      · have hbm : blockMatches "post" key r = false := by
          cases hb2 : blockMatches "post" key r
          · rfl
          · exact absurd (blockMatches_key "post" key r cp hp hb2).2.symm hk
        simp only [wideStep]
        rw [hp]
        dsimp only
        rw [if_neg hph]
        dsimp only
        rw [upsertHalf_lookup_other _ _ _ _ (fun he => hk he.symm),
          if_neg (by simp [hbm])]

/-- The pre side of the wide fold, seen through one key: the fold restricted
to the matching records, each overwriting the stored half. -/
theorem wfold_pre_lookup (records : List RawSub) :
    ∀ (acc : List ((Option String × String) × Half) ×
      List ((Option String × String) × Half)) (key : Option String × String),
      ((records.foldl wideStep acc).1).lookup key =
        (records.filter (fun r => blockMatches "pre" key r)).foldl
          (fun _ r => some (preHalfOf r)) (acc.1.lookup key) := by
  induction records with
  | nil =>
    intro acc key
    rfl
  | cons r t ih =>
    intro acc key
    rw [List.foldl_cons, ih]
    cases hb : blockMatches "pre" key r
    · rw [List.filter_cons_of_neg (by simp [hb])]
      congr 1
      rw [wstep_pre_lookup]
      simp [hb]
    · rw [List.filter_cons_of_pos (by simp [hb]), List.foldl_cons]
      congr 1
      rw [wstep_pre_lookup]
      simp [hb]

/-- The post side of the wide fold, seen through one key. -/
theorem wfold_post_lookup (records : List RawSub) :
    ∀ (acc : List ((Option String × String) × Half) ×
      List ((Option String × String) × Half)) (key : Option String × String),
      ((records.foldl wideStep acc).2).lookup key =
        (records.filter (fun r => blockMatches "post" key r)).foldl
          (fun _ r => some (postHalfOf r)) (acc.2.lookup key) := by
  induction records with
  | nil =>
    intro acc key
    rfl
  | cons r t ih =>
    intro acc key
    rw [List.foldl_cons, ih]
    cases hb : blockMatches "post" key r
    · rw [List.filter_cons_of_neg (by simp [hb])]
      congr 1
      rw [wstep_post_lookup]
      simp [hb]
    · rw [List.filter_cons_of_pos (by simp [hb]), List.foldl_cons]
      congr 1
      rw [wstep_post_lookup]
      simp [hb]

/-- With at most one pre match per key, the stored pre half is the half of
the first (only) matching record. -/
theorem wide_pre_lookup (records : List RawSub) (key : Option String × String)
    (hle : (records.filter (fun r => blockMatches "pre" key r)).length ≤ 1) :
    ((records.foldl wideStep ([], [])).1).lookup key =
      (records.find? (fun r => blockMatches "pre" key r)).map preHalfOf := by
  rw [wfold_pre_lookup]
  cases hf : records.filter (fun r => blockMatches "pre" key r) with
  | nil =>
    have hn : records.find? (fun r => blockMatches "pre" key r) = none := by
      rw [List.find?_eq_none]
      intro x hx hpx
      have hmem : x ∈ records.filter (fun r => blockMatches "pre" key r) :=
        List.mem_filter.mpr ⟨hx, hpx⟩
      rw [hf] at hmem
      cases hmem
    rw [hn]
    simp [List.lookup]
  | cons r rest =>
    rw [hf] at hle
    have hrest : rest = [] := by
      simp only [List.length_cons] at hle
      have hz : rest.length = 0 := by omega
      exact List.eq_nil_of_length_eq_zero hz
    subst hrest
    have hfind : records.find? (fun r0 => blockMatches "pre" key r0) = some r :=
      find?_of_filter_singleton records _ r hf
    rw [hfind]
    simp [List.lookup]

/-- With at most one post match per key, the stored post half is the half of
the first (only) matching record. -/
theorem wide_post_lookup (records : List RawSub) (key : Option String × String)
    (hle : (records.filter (fun r => blockMatches "post" key r)).length ≤ 1) :
    ((records.foldl wideStep ([], [])).2).lookup key =
      (records.find? (fun r => blockMatches "post" key r)).map postHalfOf := by
  rw [wfold_post_lookup]
  cases hf : records.filter (fun r => blockMatches "post" key r) with
  | nil =>
    have hn : records.find? (fun r => blockMatches "post" key r) = none := by
      rw [List.find?_eq_none]
      intro x hx hpx
      have hmem : x ∈ records.filter (fun r => blockMatches "post" key r) :=
        List.mem_filter.mpr ⟨hx, hpx⟩
      rw [hf] at hmem
      cases hmem
    rw [hn]
    simp [List.lookup]
  | cons r rest =>
    rw [hf] at hle
    have hrest : rest = [] := by
      simp only [List.length_cons] at hle
      have hz : rest.length = 0 := by omega
      exact List.eq_nil_of_length_eq_zero hz
    subst hrest
    have hfind : records.find? (fun r0 => blockMatches "post" key r0) = some r :=
      find?_of_filter_singleton records _ r hf
    rw [hfind]
    simp [List.lookup]

/-- A guarded filter-map over an association list stores no foreign key. -/
theorem lookup_filterMap_guard_none {β γ : Type} (P : String × β → Prop)
    [DecidablePred P] (f : String × β → γ) :
    ∀ (l : List (String × β)) (i : String), i ∉ l.map (fun x => x.1) →
      (l.filterMap (fun im =>
        if P im then some (im.1, f im) else none)).lookup i = none := by
  intro l
  induction l with
  | nil =>
    intro i _
    rfl
  | cons a t ih =>
    intro i hi
    rw [List.map_cons] at hi
    simp only [List.mem_cons, not_or] at hi
    rw [List.filterMap_cons]
    by_cases hP : P a
    · rw [if_pos hP]
      have hb : (i == a.1) = false := beq_eq_false_iff_ne.mpr hi.1
      simp [List.lookup, hb, ih i hi.2]
    · rw [if_neg hP]
      simpa using ih i hi.2

/-- Lookup in a guarded filter-map over a duplicate-free association list:
present with the computed value iff the guard holds at the stored entry. -/
theorem lookup_filterMap_guard {β γ : Type} (P : String × β → Prop)
    [DecidablePred P] (f : String × β → γ) :
    ∀ (l : List (String × β)) (i : String) (mi : β), (i, mi) ∈ l →
      (l.map (fun x => x.1)).Nodup →
      (l.filterMap (fun im =>
        if P im then some (im.1, f im) else none)).lookup i =
        if P (i, mi) then some (f (i, mi)) else none := by
  intro l
  induction l with
  | nil =>
    intro i mi h _
    cases h
  | cons a t ih =>
    intro i mi hm hnd
    rw [List.map_cons, List.nodup_cons] at hnd
    rw [List.filterMap_cons]
    rcases List.mem_cons.mp hm with hea | h2
    · subst hea
      by_cases hP : P (i, mi)
      · rw [if_pos hP, if_pos hP]
        simp [List.lookup]
      · rw [if_neg hP, if_neg hP]
        have hni : i ∉ t.map (fun x => x.1) := by simpa using hnd.1
        simpa using lookup_filterMap_guard_none P f t i hni
    · have himem : i ∈ t.map (fun x => x.1) := by
        simpa using List.mem_map_of_mem (fun x => x.1) h2
      have hik : i ≠ a.1 := fun he => hnd.1 (he ▸ himem)
      have hrec := ih i mi h2 hnd.2
      by_cases hP : P a
      · rw [if_pos hP]
        have hb : (i == a.1) = false := beq_eq_false_iff_ne.mpr hik
        simp [List.lookup, hb, hrec]
      · rw [if_neg hP]
        simpa using hrec

/-- Item columns stored in the pre half: every pre-phase item, with the
record's numeric payload value. -/
theorem preHalf_items_lookup (r : RawSub) (i : String) (mi : ItemMeta)
    (h : (i, mi) ∈ ITEMS) :
    (preHalfOf r).items.lookup i =
      if mi.phase = "pre" then some (to_numericOpt (r.payload.lookup i))
      else none := by
  have hnd : (ITEMS.map (fun x => x.1)).Nodup := by decide
  exact lookup_filterMap_guard (fun im => im.2.phase = "pre")
    (fun im => to_numericOpt (r.payload.lookup im.1)) ITEMS i mi h hnd

/-- Item columns stored in the post half. -/
theorem postHalf_items_lookup (r : RawSub) (i : String) (mi : ItemMeta)
    (h : (i, mi) ∈ ITEMS) :
    (postHalfOf r).items.lookup i =
      if mi.phase = "post" then some (to_numericOpt (r.payload.lookup i))
      else none := by
  have hnd : (ITEMS.map (fun x => x.1)).Nodup := by decide
  exact lookup_filterMap_guard (fun im => im.2.phase = "post")
    (fun im => to_numericOpt (r.payload.lookup im.1)) ITEMS i mi h hnd

/-- An item is a pre-half column exactly when its phase is `pre`. -/
theorem preHalf_items_keys (r : RawSub) (i : String) (mi : ItemMeta)
    (h : (i, mi) ∈ ITEMS) :
    i ∈ (preHalfOf r).items.map (fun kv => kv.1) ↔ mi.phase = "pre" := by
  rw [← glookup_isSome_iff, preHalf_items_lookup r i mi h]
  by_cases hph : mi.phase = "pre"
  · simp [hph]
  · simp [hph]

/-- An item is a post-half column exactly when its phase is `post`. -/
theorem postHalf_items_keys (r : RawSub) (i : String) (mi : ItemMeta)
    (h : (i, mi) ∈ ITEMS) :
    i ∈ (postHalfOf r).items.map (fun kv => kv.1) ↔ mi.phase = "post" := by
  rw [← glookup_isSome_iff, postHalf_items_lookup r i mi h]
  by_cases hph : mi.phase = "post"
  · simp [hph]
  · simp [hph]

/-- Searching a flattened list finds the first block whose flattening
contains a hit, then the first hit inside it. -/
theorem find?_flatMap {α β : Type} (l : List α) (f : α → List β)
    (p : β → Bool) :
    (l.flatMap f).find? p =
      match l.find? (fun a => (f a).any p) with
      | some a => (f a).find? p
      | none => none := by
  induction l with
  | nil => rfl
  | cons a t ih =>
    cases hany : (f a).any p
    · have hnone : (f a).find? p = none := by
        rw [List.find?_eq_none]
        intro x hx hpx
        have hx2 : (f a).any p = true := List.any_eq_true.mpr ⟨x, hx, hpx⟩
        rw [hany] at hx2
        cases hx2
      have hfa : List.find? (fun a0 => (f a0).any p) (a :: t) =
          List.find? (fun a0 => (f a0).any p) t := by
        simp [List.find?_cons, hany]
      rw [List.flatMap_cons, List.find?_append, hnone, hfa, ← ih]
      rfl
    · have hiss : ((f a).find? p).isSome = true :=
        List.find?_isSome.mpr (List.any_eq_true.mp hany)
      rcases Option.isSome_iff_exists.mp hiss with ⟨y, hy⟩
      have hfa : List.find? (fun a0 => (f a0).any p) (a :: t) = some a := by
        simp [List.find?_cons, hany]
      rw [List.flatMap_cons, List.find?_append, hy, hfa]
      simp [hy]

/-- `find?` only depends on the predicate's values on the list. -/
theorem find?_congr_mem {α : Type} (l : List α) (p q : α → Bool)
    (h : ∀ a ∈ l, p a = q a) : l.find? p = l.find? q := by
  induction l with
  | nil => rfl
  | cons a t ih =>
    rw [List.find?_cons, List.find?_cons, h a (by simp)]
    cases hq : q a
    · exact ih (fun x hx => h x (List.mem_cons_of_mem a hx))
    · rfl

/-- `filterMap` only depends on the function's values on the list. -/
theorem filterMap_congr_mem {α β : Type} (l : List α) (f g : α → Option β)
    (h : ∀ a ∈ l, f a = g a) : l.filterMap f = l.filterMap g := by
  induction l with
  | nil => rfl
  | cons a t ih =>
    rw [List.filterMap_cons, List.filterMap_cons, h a (by simp),
      ih (fun x hx => h x (List.mem_cons_of_mem a hx))]

/-- Long rows of a record whose section is not a block carry only the
end-of-session item names. -/
theorem end_rows_item (om : List (String × List (String × ℕ))) (r : RawSub)
    (row : LongRow) (hrow : row ∈ longRowsOf om r)
    (hp : parseBlockSection (r.section_key.getD "") = none) :
    row.item = "rank" ∨ row.item = "most_intermedial" ∨
      row.item = "biggest_mismatch" := by
  simp only [longRowsOf] at hrow
  rw [hp] at hrow
  dsimp only at hrow
  by_cases hend : r.section_key.getD "" = "end"
  · rw [if_pos hend] at hrow
    rcases List.mem_append.mp hrow with hA | hB
    · rcases List.mem_filterMap.mp hA with ⟨c, _, hg⟩
      cases hlk : r.payload.lookup ("rank_" ++ c) with
      | none =>
        rw [hlk] at hg
        exact Option.noConfusion hg
      | some rv =>
        rw [hlk] at hg
        dsimp only at hg
        injection hg with hg
        left
        rw [← hg]
    · rcases List.mem_filterMap.mp hB with ⟨key, hkey, hg⟩
      cases hlk : r.payload.lookup key with
      | none =>
        rw [hlk] at hg
        exact Option.noConfusion hg
      | some pv =>
        rw [hlk] at hg
        cases pv with
        | pstr v =>
          dsimp only at hg
          by_cases hcon : CONDITION_ORDER.contains v = true
          · rw [if_pos hcon] at hg
            injection hg with hg
            have hitem : row.item = key := by rw [← hg]
            simp only [List.mem_cons, List.not_mem_nil, or_false] at hkey
            rcases hkey with hk | hk
            · right; left; rw [hitem, hk]
            · right; right; rw [hitem, hk]
          · rw [if_neg hcon] at hg
            exact Option.noConfusion hg
        | pnull => simp at hg
        | pbool b => simp at hg
        | pnum q => simp at hg
        | plist l => simp at hg
        | pdict d => simp at hg
  · rw [if_neg hend] at hrow
    cases hrow

/-- A record contributes a long row matching `(pid, cond, i)` for a declared
item `i` exactly when the record is the `(pid, cond)` block of the item's
phase. -/
theorem longRows_any_eq (om : List (String × List (String × ℕ)))
    (r : RawSub) (pid : Option String) (cond i : String) (mi : ItemMeta)
    (h : (i, mi) ∈ ITEMS) :
    ((longRowsOf om r).any (fun lr =>
      lr.participant_id == pid && lr.condition == cond && lr.item == i)) =
      blockMatches mi.phase (pid, cond) r := by
  cases hp : parseBlockSection (r.section_key.getD "") with
  | none =>
    have hrhs : blockMatches mi.phase (pid, cond) r = false := by
      unfold blockMatches
      rw [hp]
    rw [hrhs]
    apply Bool.eq_false_iff.mpr
    intro hany
    rcases List.any_eq_true.mp hany with ⟨row, hrow, hpred⟩
    have hitem3 := end_rows_item om r row hrow hp
    have hfacts : ∀ p ∈ ITEMS, p.1 ≠ "rank" ∧ p.1 ≠ "most_intermedial" ∧
        p.1 ≠ "biggest_mismatch" := by decide
    obtain ⟨hr1, hr2, hr3⟩ := hfacts (i, mi) h
    have hie : row.item = i := by
      simp only [Bool.and_eq_true, beq_iff_eq] at hpred
      exact hpred.2
    rcases hitem3 with h1 | h1 | h1
    · exact hr1 (hie ▸ h1)
    · exact hr2 (hie ▸ h1)
    · exact hr3 (hie ▸ h1)
  | some cp =>
    unfold blockMatches
    simp only [longRowsOf]
    rw [hp]
    dsimp only
    rw [Bool.eq_iff_iff]
    constructor
    · intro hany
      rcases List.any_eq_true.mp hany with ⟨row, hrow, hpred⟩
      rcases List.mem_filterMap.mp hrow with ⟨im, him, hg⟩
      by_cases hph : im.2.phase = cp.2
      · rw [if_pos hph] at hg
        injection hg with hg
        rw [← hg] at hpred
        dsimp only at hpred
        simp only [Bool.and_eq_true, beq_iff_eq] at hpred
        obtain ⟨⟨hpid, hcond⟩, hitem⟩ := hpred
        have him2 : (i, im.2) ∈ ITEMS := by
          have heta : (im.1, im.2) ∈ ITEMS := by
            rw [Prod.mk.eta]
            exact him
          rw [hitem] at heta
          exact heta
        have hval : im.2 = mi :=
          mem_assoc_unique ITEMS i im.2 mi (by decide) him2 h
        simp only [Bool.and_eq_true, decide_eq_true_eq, beq_iff_eq]
        refine ⟨⟨?_, hpid⟩, hcond⟩
        rw [← hval, hph]
      · rw [if_neg hph] at hg
        exact Option.noConfusion hg
    · intro hbm
      simp only [Bool.and_eq_true, decide_eq_true_eq, beq_iff_eq] at hbm
      obtain ⟨⟨hph, hpid⟩, hcond⟩ := hbm
      apply List.any_eq_true.mpr
      refine ⟨{ participant_id := r.participant_id
                condition := cp.1
                phase := cp.2
                item := i
                value := to_numericOpt (r.payload.lookup i)
                item_label := some mi.label
                is_reverse := decide (mi.direction = -1)
                construct := ITEM_TO_CONSTRUCT.lookup i
                block_position := omGet om r.participant_id cp.1
                timestamps := r.updated_at }, ?_, ?_⟩
      · apply List.mem_filterMap.mpr
        refine ⟨(i, mi), h, ?_⟩
        rw [if_pos (show (i, mi).2.phase = cp.2 from hph.symm)]
      · simp [hpid, hcond]

/-- On the matching block record, the first matching long row carries the
record's numeric payload value for the item. -/
theorem longRows_find_value (om : List (String × List (String × ℕ)))
    (r : RawSub) (pid : Option String) (cond i : String) (mi : ItemMeta)
    (h : (i, mi) ∈ ITEMS)
    (hbm : blockMatches mi.phase (pid, cond) r = true) :
    ((longRowsOf om r).find? (fun lr =>
      lr.participant_id == pid && lr.condition == cond && lr.item == i)).bind
      (fun lr => lr.value) = to_numericOpt (r.payload.lookup i) := by
  have hany : ((longRowsOf om r).any (fun lr =>
      lr.participant_id == pid && lr.condition == cond && lr.item == i)) =
      true := by
    rw [longRows_any_eq om r pid cond i mi h]
    exact hbm
  have hiss := List.find?_isSome.mpr (List.any_eq_true.mp hany)
  rcases Option.isSome_iff_exists.mp hiss with ⟨row, hrow⟩
  have hmem := List.mem_of_find?_eq_some hrow
  have hpred := List.find?_some hrow
  obtain ⟨cp, hp⟩ : ∃ cp, parseBlockSection (r.section_key.getD "") =
      some cp := by
    unfold blockMatches at hbm
    cases hq : parseBlockSection (r.section_key.getD "") with
    | none =>
      rw [hq] at hbm
      cases hbm
    | some v => exact ⟨v, rfl⟩
  simp only [longRowsOf] at hmem
  rw [hp] at hmem
  dsimp only at hmem
  rcases List.mem_filterMap.mp hmem with ⟨im, him, hg⟩
  by_cases hph : im.2.phase = cp.2
  · rw [if_pos hph] at hg
    injection hg with hg
    rw [← hg] at hpred
    dsimp only at hpred
    simp only [Bool.and_eq_true, beq_iff_eq] at hpred
    have hitem : im.1 = i := hpred.2
    rw [hrow, ← hg, hitem]
    rfl
  · rw [if_neg hph] at hg
    exact Option.noConfusion hg

/-- Pivoting the long table at `(pid, cond, i)` reads the numeric payload
value of the first record that is the `(pid, cond)` block of the item's
phase, and is null when no record is. -/
theorem pivot_long_char (records : List RawSub)
    (om : List (String × List (String × ℕ)))
    (pid : Option String) (cond i : String) (mi : ItemMeta)
    (h : (i, mi) ∈ ITEMS) :
    pivotLongItem (build_blocks_long records om) pid cond i =
      match records.find? (fun r => blockMatches mi.phase (pid, cond) r) with
      | some r => to_numericOpt (r.payload.lookup i)
      | none => none := by
  unfold pivotLongItem build_blocks_long
  rw [find?_flatMap]
  have heq := find?_congr_mem records
    (fun a => (longRowsOf om a).any (fun lr =>
      lr.participant_id == pid && lr.condition == cond && lr.item == i))
    (fun r => blockMatches mi.phase (pid, cond) r)
    (fun r _ => longRows_any_eq om r pid cond i mi h)
  rw [heq]
  cases hf : records.find? (fun r => blockMatches mi.phase (pid, cond) r) with
  | none => rfl
  | some r =>
    dsimp only
    have hbm : blockMatches mi.phase (pid, cond) r = true := List.find?_some hf
    exact longRows_find_value om r pid cond i mi h hbm

/-- A match implies the record's section parses with the wanted phase. -/
theorem blockMatches_parse (ph : String) (key : Option String × String)
    (r : RawSub) (h : blockMatches ph key r = true) :
    ∃ cp, parseBlockSection (r.section_key.getD "") = some cp ∧
      cp.2 = ph := by
  unfold blockMatches at h
  cases hp : parseBlockSection (r.section_key.getD "") with
  | none =>
    rw [hp] at h
    cases h
  | some cp =>
    rw [hp] at h
    dsimp only at h
    simp only [Bool.and_eq_true, decide_eq_true_eq, beq_iff_eq] at h
    exact ⟨cp, rfl, h.1.1⟩

/-- Membership in the set-accumulating fold behind `dedupFirst`. -/
theorem dedupFold_mem {α : Type} [DecidableEq α] :
    ∀ (l acc : List α) (x : α),
      x ∈ l.foldl (fun acc x => if acc.contains x then acc else acc ++ [x])
        acc ↔ x ∈ acc ∨ x ∈ l := by
  intro l
  induction l with
  | nil =>
    intro acc x
    simp
  | cons a t ih =>
    intro acc x
    rw [List.foldl_cons]
    by_cases hc : acc.contains a = true
    · rw [if_pos hc, ih]
      constructor
      · rintro (hx | hx)
        · exact Or.inl hx
        · exact Or.inr (List.mem_cons_of_mem a hx)
      · rintro (hx | hx)
        · exact Or.inl hx
        · rcases List.mem_cons.mp hx with heq | hx2
          · subst heq
            exact Or.inl (List.elem_iff.mp hc)
          · exact Or.inr hx2
    · rw [if_neg hc, ih]
      constructor
      · rintro (hx | hx)
        · rcases List.mem_append.mp hx with h1 | h1
          · exact Or.inl h1
          · rw [List.mem_singleton] at h1
            subst h1
            exact Or.inr (List.mem_cons_self _ _)
        · exact Or.inr (List.mem_cons_of_mem a hx)
      · rintro (hx | hx)
        · exact Or.inl (List.mem_append.mpr (Or.inl hx))
        · rcases List.mem_cons.mp hx with heq | hx2
          · subst heq
            exact Or.inl (List.mem_append.mpr (Or.inr (List.mem_singleton.mpr rfl)))
          · exact Or.inr hx2

/-- First-occurrence deduplication preserves membership. -/
theorem dedupFirst_mem {α : Type} [DecidableEq α] (l : List α) (x : α) :
    x ∈ dedupFirst l ↔ x ∈ l := by
  unfold dedupFirst
  rw [dedupFold_mem]
  simp

/-- A declared item is a reconstructed column exactly when some record is a
block of the item's phase. -/
theorem reconCols_mem_iff (records : List RawSub)
    (om : List (String × List (String × ℕ)))
    (i : String) (mi : ItemMeta) (h : (i, mi) ∈ ITEMS) :
    i ∈ reconItemCols (build_blocks_long records om) ↔
      ∃ r ∈ records, ∃ cp,
        parseBlockSection (r.section_key.getD "") = some cp ∧
        cp.2 = mi.phase := by
  unfold reconItemCols build_blocks_long
  constructor
  · intro hi
    rcases List.mem_map.mp hi with ⟨lr, hlr, hlit⟩
    have hfil := List.mem_filter.mp hlr
    rcases List.mem_flatMap.mp hfil.1 with ⟨r, hr, hrowmem⟩
    cases hp : parseBlockSection (r.section_key.getD "") with
    | none =>
      exfalso
      have h3 := end_rows_item om r lr hrowmem hp
      have hfacts : ∀ p ∈ ITEMS, p.1 ≠ "rank" ∧ p.1 ≠ "most_intermedial" ∧
          p.1 ≠ "biggest_mismatch" := by decide
      obtain ⟨hr1, hr2, hr3⟩ := hfacts (i, mi) h
      rcases h3 with h1 | h1 | h1
      · exact hr1 (hlit ▸ h1)
      · exact hr2 (hlit ▸ h1)
      · exact hr3 (hlit ▸ h1)
    | some cp =>
      refine ⟨r, hr, cp, hp, ?_⟩
      simp only [longRowsOf] at hrowmem
      rw [hp] at hrowmem
      dsimp only at hrowmem
      rcases List.mem_filterMap.mp hrowmem with ⟨im, him, hg⟩
      by_cases hph : im.2.phase = cp.2
      · rw [if_pos hph] at hg
        injection hg with hg
        have hitem : im.1 = i := by
          rw [← hg] at hlit
          exact hlit
        have him2 : (i, im.2) ∈ ITEMS := by
          have heta : (im.1, im.2) ∈ ITEMS := by
            rw [Prod.mk.eta]
            exact him
          rw [hitem] at heta
          exact heta
        have hval : im.2 = mi := mem_assoc_unique ITEMS i im.2 mi (by decide) him2 h
        rw [← hval, hph]
      · rw [if_neg hph] at hg
        exact Option.noConfusion hg
  · rintro ⟨r, hr, cp, hp, hcp⟩
    apply List.mem_map.mpr
    refine ⟨{ participant_id := r.participant_id
              condition := cp.1
              phase := cp.2
              item := i
              value := to_numericOpt (r.payload.lookup i)
              item_label := some mi.label
              is_reverse := decide (mi.direction = -1)
              construct := ITEM_TO_CONSTRUCT.lookup i
              block_position := omGet om r.participant_id cp.1
              timestamps := r.updated_at }, ?_, rfl⟩
    apply List.mem_filter.mpr
    constructor
    · apply List.mem_flatMap.mpr
      refine ⟨r, hr, ?_⟩
      simp only [longRowsOf]
      rw [hp]
      dsimp only
      apply List.mem_filterMap.mpr
      refine ⟨(i, mi), h, ?_⟩
      rw [if_pos (show (i, mi).2.phase = cp.2 from hcp.symm)]
    · have hpp : mi.phase = "pre" ∨ mi.phase = "post" :=
        (by decide : ∀ p ∈ ITEMS, p.2.phase = "pre" ∨ p.2.phase = "post")
          (i, mi) h
      rcases hpp with h1 | h1 <;> simp [hcp, h1]

/-- A declared item is a wide item column exactly when some record is a
block of the item's phase (under duplicate-free record keys). -/
theorem wideCols_mem_iff (records : List RawSub)
    (om : List (String × List (String × ℕ)))
    (hnd : (records.map (fun r => (r.participant_id, r.section_key))).Nodup)
    (i : String) (mi : ItemMeta) (h : (i, mi) ∈ ITEMS) :
    i ∈ wideCols (build_blocks_wide_rows records om) ↔
      ∃ r ∈ records, ∃ cp,
        parseBlockSection (r.section_key.getD "") = some cp ∧
        cp.2 = mi.phase := by
  simp only [wideCols, build_blocks_wide_rows]
  constructor
  · intro hi
    rcases List.mem_flatMap.mp hi with ⟨row, hrowmem, hic⟩
    rcases List.mem_map.mp hrowmem with ⟨k, hk, hrow⟩
    rw [← hrow] at hic
    dsimp only at hic
    rcases List.mem_append.mp hic with hside | hside
    · cases hl : (records.foldl wideStep ([], [])).1.lookup k with
      | none =>
        rw [hl] at hside
        simp at hside
      | some hh =>
        rw [hl] at hside
        dsimp only [Option.elim] at hside
        have hle := blockFilter_le_one records hnd "pre" k
        have hlk := wide_pre_lookup records k hle
        rw [hlk] at hl
        rcases Option.map_eq_some'.mp hl with ⟨r0, hfind, hhalf⟩
        have hmemrec := List.mem_of_find?_eq_some hfind
        have hbm : blockMatches "pre" k r0 = true := List.find?_some hfind
        obtain ⟨cp, hp, hcp⟩ := blockMatches_parse "pre" k r0 hbm
        refine ⟨r0, hmemrec, cp, hp, ?_⟩
        rw [← hhalf] at hside
        have hph := (preHalf_items_keys r0 i mi h).mp hside
        rw [hcp, hph]
    · cases hl : (records.foldl wideStep ([], [])).2.lookup k with
      | none =>
        rw [hl] at hside
        simp at hside
      | some hh =>
        rw [hl] at hside
        dsimp only [Option.elim] at hside
        have hle := blockFilter_le_one records hnd "post" k
        have hlk := wide_post_lookup records k hle
        rw [hlk] at hl
        rcases Option.map_eq_some'.mp hl with ⟨r0, hfind, hhalf⟩
        have hmemrec := List.mem_of_find?_eq_some hfind
        have hbm : blockMatches "post" k r0 = true := List.find?_some hfind
        obtain ⟨cp, hp, hcp⟩ := blockMatches_parse "post" k r0 hbm
        refine ⟨r0, hmemrec, cp, hp, ?_⟩
        rw [← hhalf] at hside
        have hph := (postHalf_items_keys r0 i mi h).mp hside
        rw [hcp, hph]
  · rintro ⟨r, hr, cp, hp, hcp⟩
    rcases parse_phase _ _ hp with hpre | hpost
    · have hbm : blockMatches "pre" (r.participant_id, cp.1) r = true :=
        blockMatches_self "pre" r cp hp hpre
      have hle := blockFilter_le_one records hnd "pre" (r.participant_id, cp.1)
      have hlk := wide_pre_lookup records (r.participant_id, cp.1) hle
      have hfs : ((records.find? (fun r0 =>
          blockMatches "pre" (r.participant_id, cp.1) r0)).isSome) = true :=
        List.find?_isSome.mpr ⟨r, hr, hbm⟩
      rcases Option.isSome_iff_exists.mp hfs with ⟨r0, hfind⟩
      have hkmem : (r.participant_id, cp.1) ∈
          ((records.foldl wideStep ([], [])).1).map (fun kv => kv.1) := by
        apply (glookup_isSome_iff _ _).mp
        rw [hlk, hfind]
        rfl
      have hkeys : (r.participant_id, cp.1) ∈
          (dedupFirst (((records.foldl wideStep ([], [])).1.map
            (fun kv => kv.1)) ++
            ((records.foldl wideStep ([], [])).2.map
              (fun kv => kv.1)))).insertionSort keyLe := by
        apply (List.perm_insertionSort keyLe _).mem_iff.mpr
        apply (dedupFirst_mem _ _).mpr
        exact List.mem_append.mpr (Or.inl hkmem)
      apply List.mem_flatMap.mpr
      refine ⟨_, List.mem_map_of_mem _ hkeys, ?_⟩
      dsimp only
      refine List.mem_append.mpr (Or.inl ?_)
      have hsome : (records.foldl wideStep ([], [])).1.lookup
          (r.participant_id, cp.1) = some (preHalfOf r0) := by
        rw [hlk, hfind]
        rfl
      rw [hsome]
      show i ∈ (preHalfOf r0).items.map (fun kv => kv.1)
      apply (preHalf_items_keys r0 i mi h).mpr
      rw [← hcp]
      exact hpre
    · have hbm : blockMatches "post" (r.participant_id, cp.1) r = true :=
        blockMatches_self "post" r cp hp hpost
      have hle := blockFilter_le_one records hnd "post" (r.participant_id, cp.1)
      have hlk := wide_post_lookup records (r.participant_id, cp.1) hle
      have hfs : ((records.find? (fun r0 =>
          blockMatches "post" (r.participant_id, cp.1) r0)).isSome) = true :=
        List.find?_isSome.mpr ⟨r, hr, hbm⟩
      rcases Option.isSome_iff_exists.mp hfs with ⟨r0, hfind⟩
      have hkmem : (r.participant_id, cp.1) ∈
          ((records.foldl wideStep ([], [])).2).map (fun kv => kv.1) := by
        apply (glookup_isSome_iff _ _).mp
        rw [hlk, hfind]
        rfl
      have hkeys : (r.participant_id, cp.1) ∈
          (dedupFirst (((records.foldl wideStep ([], [])).1.map
            (fun kv => kv.1)) ++
            ((records.foldl wideStep ([], [])).2.map
              (fun kv => kv.1)))).insertionSort keyLe := by
        apply (List.perm_insertionSort keyLe _).mem_iff.mpr
        apply (dedupFirst_mem _ _).mpr
        exact List.mem_append.mpr (Or.inr hkmem)
      apply List.mem_flatMap.mpr
      refine ⟨_, List.mem_map_of_mem _ hkeys, ?_⟩
      dsimp only
      refine List.mem_append.mpr (Or.inr ?_)
      have hsome : (records.foldl wideStep ([], [])).2.lookup
          (r.participant_id, cp.1) = some (postHalfOf r0) := by
        rw [hlk, hfind]
        rfl
      rw [hsome]
      show i ∈ (postHalfOf r0).items.map (fun kv => kv.1)
      apply (postHalf_items_keys r0 i mi h).mpr
      rw [← hcp]
      exact hpost

/-- A successful lookup exhibits a stored pair. -/
theorem lookup_some_mem {κ β : Type} [BEq κ] [LawfulBEq κ]
    (l : List (κ × β)) (k : κ) (v : β) (h : l.lookup k = some v) :
    (k, v) ∈ l := by
  induction l with
  | nil => simp [List.lookup] at h
  | cons a t ih =>
    rcases a with ⟨k1, v1⟩
    cases hbeq : (k == k1)
    · exact List.mem_cons_of_mem _ (ih (by simpa [List.lookup, hbeq] using h))
    · have hk : k = k1 := eq_of_beq hbeq
      have hv : v1 = v := by simpa [List.lookup, hbeq] using h
      apply List.mem_cons.mpr
      left
      rw [hk, ← hv]

/-- A negatively guarded filter-map stores no foreign key. -/
theorem lookup_filterMap_guard2_none {β γ : Type} (P : String × β → Prop)
    [DecidablePred P] (f : String × β → γ) :
    ∀ (l : List (String × β)) (i : String), i ∉ l.map (fun x => x.1) →
      (l.filterMap (fun im =>
        if P im then none else some (im.1, f im))).lookup i = none := by
  intro l
  induction l with
  | nil =>
    intro i _
    rfl
  | cons a t ih =>
    intro i hi
    rw [List.map_cons] at hi
    simp only [List.mem_cons, not_or] at hi
    rw [List.filterMap_cons]
    by_cases hP : P a
    · rw [if_pos hP]
      simpa using ih i hi.2
    · rw [if_neg hP]
      have hb : (i == a.1) = false := beq_eq_false_iff_ne.mpr hi.1
      simp [List.lookup, hb, ih i hi.2]

/-- Lookup in a negatively guarded filter-map over duplicate-free keys. -/
theorem lookup_filterMap_guard2 {β γ : Type} (P : String × β → Prop)
    [DecidablePred P] (f : String × β → γ) :
    ∀ (l : List (String × β)) (i : String) (mi : β), (i, mi) ∈ l →
      (l.map (fun x => x.1)).Nodup →
      (l.filterMap (fun im =>
        if P im then none else some (im.1, f im))).lookup i =
        if P (i, mi) then none else some (f (i, mi)) := by
  intro l
  induction l with
  | nil =>
    intro i mi h _
    cases h
  | cons a t ih =>
    intro i mi hm hnd
    rw [List.map_cons, List.nodup_cons] at hnd
    rw [List.filterMap_cons]
    rcases List.mem_cons.mp hm with hea | h2
    · subst hea
      by_cases hP : P (i, mi)
      · rw [if_pos hP, if_pos hP]
        have hni : i ∉ t.map (fun x => x.1) := by simpa using hnd.1
        simpa using lookup_filterMap_guard2_none P f t i hni
      · rw [if_neg hP, if_neg hP]
        simp [List.lookup]
    · have himem : i ∈ t.map (fun x => x.1) := by
        simpa using List.mem_map_of_mem (fun x => x.1) h2
      have hik : i ≠ a.1 := fun he => hnd.1 (he ▸ himem)
      have hrec := ih i mi h2 hnd.2
      by_cases hP : P a
      · rw [if_pos hP]
        simpa using hrec
      · rw [if_neg hP]
        have hb : (i == a.1) = false := beq_eq_false_iff_ne.mpr hik
        simp [List.lookup, hb, hrec]

/-- Lookup of one construct's composite column in the attached association
list of `compute_composites`. -/
theorem composites_assoc_lookup (cols : List String) (row : WideRow)
    (cname : String) (cm : ConstructMeta)
    (hmem : (cname, cm) ∈ CONSTRUCTS) :
    (CONSTRUCTS.filterMap (fun cm0 =>
      if (cm0.2.items.filter (fun i => cols.contains i)).isEmpty then none
      else some (cm0.1, compositeValCols (wideItemVal row) cm0.2
        cols))).lookup cname =
      if (cm.items.filter (fun i => cols.contains i)).isEmpty then none
      else some (compositeValCols (wideItemVal row) cm cols) := by
  have hnd : (CONSTRUCTS.map (fun x => x.1)).Nodup := by decide
  exact lookup_filterMap_guard2
    (fun cm0 => (cm0.2.items.filter (fun i => cols.contains i)).isEmpty = true)
    (fun cm0 => compositeValCols (wideItemVal row) cm0.2 cols)
    CONSTRUCTS cname cm hmem hnd

/-- The composite value only depends on the columns and the lookups at the
construct's items. -/
theorem compositeValCols_congr (lk1 lk2 : String → Option ℚ)
    (cm : ConstructMeta) (cols1 cols2 : List String)
    (hcols : ∀ i ∈ cm.items, (cols1.contains i) = (cols2.contains i))
    (hlk : ∀ i ∈ cm.items, lk1 i = lk2 i) :
    compositeValCols lk1 cm cols1 = compositeValCols lk2 cm cols2 := by
  simp only [compositeValCols]
  have huse : cm.items.filter (fun i => cols1.contains i) =
      cm.items.filter (fun i => cols2.contains i) :=
    List.filter_congr hcols
  rw [huse]
  have hvals : (cm.items.filter (fun i => cols2.contains i)).filterMap
      (fun i => if cm.reverse.contains i then colReverse (lk1 i)
        else lk1 i) =
      (cm.items.filter (fun i => cols2.contains i)).filterMap
      (fun i => if cm.reverse.contains i then colReverse (lk2 i)
        else lk2 i) := by
    apply filterMap_congr_mem
    intro a ha
    have ha2 : a ∈ cm.items := (List.mem_filter.mp ha).1
    rw [hlk a ha2]
  rw [hvals]

/-- On a wide row whose halves are the stored fold halves of its key, every
declared item column equals the long-table pivot. -/
theorem wideItemVal_pivot (records : List RawSub)
    (om : List (String × List (String × ℕ)))
    (hnd : (records.map (fun r => (r.participant_id, r.section_key))).Nodup)
    (row : WideRow) (i : String) (mi : ItemMeta) (h : (i, mi) ∈ ITEMS)
    (hpre : row.pre = (records.foldl wideStep ([], [])).1.lookup
      (row.participant_id, row.condition))
    (hpost : row.post = (records.foldl wideStep ([], [])).2.lookup
      (row.participant_id, row.condition)) :
    wideItemVal row i =
      pivotLongItem (build_blocks_long records om) row.participant_id
        row.condition i := by
  have hpp : mi.phase = "pre" ∨ mi.phase = "post" :=
    (by decide : ∀ p ∈ ITEMS, p.2.phase = "pre" ∨ p.2.phase = "post")
      (i, mi) h
  have hleP := blockFilter_le_one records hnd "pre"
    (row.participant_id, row.condition)
  have hleQ := blockFilter_le_one records hnd "post"
    (row.participant_id, row.condition)
  have hlkP := wide_pre_lookup records (row.participant_id, row.condition) hleP
  have hlkQ := wide_post_lookup records (row.participant_id, row.condition) hleQ
  rw [pivot_long_char records om row.participant_id row.condition i mi h]
  unfold wideItemVal
  rw [hpre, hpost, hlkP, hlkQ]
  rcases hpp with hph | hph
  · rw [hph]
    have hpostnone : ((records.find? (fun r => blockMatches "post"
        (row.participant_id, row.condition) r)).map postHalfOf).bind
        (fun hh => hh.items.lookup i) = none := by
      cases hfq : records.find? (fun r => blockMatches "post"
          (row.participant_id, row.condition) r) with
      | none => rfl
      | some rq =>
        have hlq := postHalf_items_lookup rq i mi h
        have hne : ¬ mi.phase = "post" := by
          rw [hph]
          decide
        rw [if_neg hne] at hlq
        simp [hlq]
    rw [hpostnone]
    cases hfp : records.find? (fun r => blockMatches "pre"
        (row.participant_id, row.condition) r) with
    | none => rfl
    | some rp =>
      have hl := preHalf_items_lookup rp i mi h
      rw [if_pos hph] at hl
      simp [hl]
  · rw [hph]
    cases hfq : records.find? (fun r => blockMatches "post"
        (row.participant_id, row.condition) r) with
    | none =>
      cases hfp : records.find? (fun r => blockMatches "pre"
          (row.participant_id, row.condition) r) with
      | none => rfl
      | some rp =>
        have hl := preHalf_items_lookup rp i mi h
        have hne : ¬ mi.phase = "pre" := by
          rw [hph]
          decide
        rw [if_neg hne] at hl
        simp [hl]
    | some rq =>
      have hlq := postHalf_items_lookup rq i mi h
      rw [if_pos hph] at hlq
      simp [hlq]

/-- C8: for every canonical record set (duplicate-free
`(participant, section)` keys), pivoting the long table produced by
`build_blocks_long` back to one value per `(participant, condition, item)`
reproduces every declared item column of the wide table produced by
`build_blocks_wide` (the reconstructed and direct item-column sets agree),
and recomputing the composite indices with `compute_composites`' formula
from the reconstructed item columns reproduces the original composite
values, including their presence condition. -/
theorem round_trip_c8 (records : List RawSub)
    (om : List (String × List (String × ℕ)))
    (hnd : (records.map (fun r => (r.participant_id, r.section_key))).Nodup) :
    (∀ im ∈ ITEMS,
      (im.1 ∈ reconItemCols (build_blocks_long records om) ↔
        im.1 ∈ wideCols (build_blocks_wide_rows records om))) ∧
    ∀ rc ∈ build_blocks_wide records om,
      (∀ im ∈ ITEMS,
        wideItemVal rc.1 im.1 =
          pivotLongItem (build_blocks_long records om) rc.1.participant_id
            rc.1.condition im.1) ∧
      (∀ cm ∈ CONSTRUCTS,
        rc.2.lookup cm.1 =
          (if (cm.2.items.filter (fun i =>
              (reconItemCols (build_blocks_long records om)).contains
                i)).isEmpty
           then none
           else some (compositeValCols
             (fun i => pivotLongItem (build_blocks_long records om)
               rc.1.participant_id rc.1.condition i)
             cm.2 (reconItemCols (build_blocks_long records om))))) := by
  constructor
  · intro im him
    have hmem2 : (im.1, im.2) ∈ ITEMS := by
      rw [Prod.mk.eta]
      exact him
    rw [reconCols_mem_iff records om im.1 im.2 hmem2,
      wideCols_mem_iff records om hnd im.1 im.2 hmem2]
  · intro rc hrc
    simp only [build_blocks_wide, compute_composites] at hrc
    rcases List.mem_map.mp hrc with ⟨row0, hrow0, hpair⟩
    have hrowmem := hrow0
    simp only [build_blocks_wide_rows] at hrowmem
    rcases List.mem_map.mp hrowmem with ⟨k, hk, hkrow⟩
    have hpre : row0.pre = (records.foldl wideStep ([], [])).1.lookup
        (row0.participant_id, row0.condition) := by
      rw [← hkrow]
    have hpost : row0.post = (records.foldl wideStep ([], [])).2.lookup
        (row0.participant_id, row0.condition) := by
      rw [← hkrow]
    rw [← hpair]
    dsimp only
    constructor
    · intro im him
      have hmem2 : (im.1, im.2) ∈ ITEMS := by
        rw [Prod.mk.eta]
        exact him
      exact wideItemVal_pivot records om hnd row0 im.1 im.2 hmem2 hpre hpost
    · intro cm hcm
      have hmem2 : (cm.1, cm.2) ∈ CONSTRUCTS := by
        rw [Prod.mk.eta]
        exact hcm
      rw [composites_assoc_lookup (wideCols (build_blocks_wide_rows records om))
        row0 cm.1 cm.2 hmem2]
      have hconstr : ∀ c ∈ CONSTRUCTS, ∀ i ∈ c.2.items,
          (ITEMS.lookup i).isSome = true := by decide
      have hcols : ∀ i ∈ cm.2.items,
          ((wideCols (build_blocks_wide_rows records om)).contains i) =
            ((reconItemCols (build_blocks_long records om)).contains i) := by
        intro i hi
        rcases Option.isSome_iff_exists.mp (hconstr cm hcm i hi) with ⟨mi, hmi⟩
        have hmemi : (i, mi) ∈ ITEMS := lookup_some_mem ITEMS i mi hmi
        rw [Bool.eq_iff_iff]
        constructor
        · intro hw
          have hmemw := List.elem_iff.mp hw
          have hx := (wideCols_mem_iff records om hnd i mi hmemi).mp hmemw
          exact List.elem_iff.mpr ((reconCols_mem_iff records om i mi
            hmemi).mpr hx)
        · intro hr2
          have hmemr := List.elem_iff.mp hr2
          have hx := (reconCols_mem_iff records om i mi hmemi).mp hmemr
          exact List.elem_iff.mpr ((wideCols_mem_iff records om hnd i mi
            hmemi).mpr hx)
      have hfilter : cm.2.items.filter (fun i =>
          (wideCols (build_blocks_wide_rows records om)).contains i) =
          cm.2.items.filter (fun i =>
          (reconItemCols (build_blocks_long records om)).contains i) :=
        List.filter_congr hcols
      have hlkeq : ∀ i ∈ cm.2.items,
          wideItemVal row0 i = pivotLongItem (build_blocks_long records om)
            row0.participant_id row0.condition i := by
        intro i hi
        rcases Option.isSome_iff_exists.mp (hconstr cm hcm i hi) with ⟨mi, hmi⟩
        have hmemi : (i, mi) ∈ ITEMS := lookup_some_mem ITEMS i mi hmi
        exact wideItemVal_pivot records om hnd row0 i mi hmemi hpre hpost
      have hval : compositeValCols (wideItemVal row0) cm.2
          (wideCols (build_blocks_wide_rows records om)) =
          compositeValCols (fun i => pivotLongItem
            (build_blocks_long records om) row0.participant_id
            row0.condition i) cm.2
          (reconItemCols (build_blocks_long records om)) :=
        compositeValCols_congr _ _ cm.2 _ _ hcols hlkeq
      rw [hfilter, hval]

/-- Witness for C8 on a one-record canonical set holding one pre block. -/
theorem round_trip_c8_witness :
    (([(⟨some "p1", some "block_A_pre", [("A_1", PVal.pnum 5)], none⟩ :
        RawSub)]).map (fun r => (r.participant_id, r.section_key))).Nodup ∧
    ((∀ im ∈ ITEMS,
      (im.1 ∈ reconItemCols (build_blocks_long
          [⟨some "p1", some "block_A_pre", [("A_1", PVal.pnum 5)], none⟩]
          []) ↔
        im.1 ∈ wideCols (build_blocks_wide_rows
          [⟨some "p1", some "block_A_pre", [("A_1", PVal.pnum 5)], none⟩]
          []))) ∧
    ∀ rc ∈ build_blocks_wide
        [⟨some "p1", some "block_A_pre", [("A_1", PVal.pnum 5)], none⟩] [],
      (∀ im ∈ ITEMS,
        wideItemVal rc.1 im.1 =
          pivotLongItem (build_blocks_long
            [⟨some "p1", some "block_A_pre", [("A_1", PVal.pnum 5)], none⟩]
            []) rc.1.participant_id rc.1.condition im.1) ∧
      (∀ cm ∈ CONSTRUCTS,
        rc.2.lookup cm.1 =
          (if (cm.2.items.filter (fun i =>
              (reconItemCols (build_blocks_long
                [⟨some "p1", some "block_A_pre", [("A_1", PVal.pnum 5)], none⟩]
                [])).contains i)).isEmpty
           then none
           else some (compositeValCols
             (fun i => pivotLongItem (build_blocks_long
               [⟨some "p1", some "block_A_pre", [("A_1", PVal.pnum 5)], none⟩]
               []) rc.1.participant_id rc.1.condition i)
             cm.2 (reconItemCols (build_blocks_long
               [⟨some "p1", some "block_A_pre", [("A_1", PVal.pnum 5)], none⟩]
               [])))))) :=
  ⟨by simp,
    round_trip_c8
      [⟨some "p1", some "block_A_pre", [("A_1", PVal.pnum 5)], none⟩] []
      (by simp)⟩
